import Mathlib

/-!
Verification of the mesh3d tile-streaming / GPU-propagation core.

Shallow embedding of the relevant C++ sources:
  * `src/tile/tile_coord.h`      — slippy-map tile coordinate algebra
  * `src/tile/hgt_provider.cpp`  — HGT elevation decoding
  * `src/tile/tile_cache.cpp`    — LRU tile cache
  * `src/tile/async_loader.cpp`  — background loader state machine
  * `src/tile/tile_manager.cpp`  — composite elevation assembly
  * `src/tile/disk_cache.cpp`    — on-disk byte cache
  * `src/analysis/gpu_viewshed.cpp` — chunked GPU compute state machine

Machine integers are modelled as `Nat`/`Int`, bytes as `Nat` reduced mod 256,
`float`/`double` arithmetic as exact rational (or real, for the
transcendental slippy-map projections) arithmetic.
-/

namespace Mesh3d

/-- `TileCoord` from `src/tile/tile_coord.h`: three integers `(z, x, y)`. -/
structure TileCoord where
  z : ℤ
  x : ℤ
  y : ℤ
deriving DecidableEq

/-- Geographic bounds over ℚ (used by the exact-arithmetic subsystems). -/
structure QBounds where
  min_lat : ℚ
  max_lat : ℚ
  min_lon : ℚ
  max_lon : ℚ
deriving DecidableEq

/-! ## HGT decoding (`src/tile/hgt_provider.cpp`) -/

namespace Hgt

/-- One big-endian signed int16 sample: `(p[2i] << 8) | p[2i+1]` followed by
the `static_cast<int16_t>` wrap.  Bytes are reduced mod 256 as in the byte
stream. -/
def rawSample (data : List ℕ) (i : ℕ) : ℤ :=
  let hi := data.getD (2 * i) 0 % 256
  let lo := data.getD (2 * i + 1) 0 % 256
  let u := hi * 256 + lo
  if 32768 ≤ u then (u : ℤ) - 65536 else (u : ℤ)

/-- SRTM void filter from `read_hgt`: `if (val < -1000) val = 0`. -/
def voidFilter (v : ℤ) : ℤ :=
  if v < -1000 then 0 else v

/-- `HgtProvider::read_hgt`: validates the sample count (`data.size() / 2`)
against the two supported square shapes and decodes every sample.
Failure (the source returns an empty vector) is modelled as `none`;
success returns the decoded grid together with its side length. -/
def read_hgt (data : List ℕ) : Option (List ℤ × ℕ) :=
  let samples := data.length / 2
  if samples = 3601 * 3601 then
    some ((List.range samples).map (fun i => voidFilter (rawSample data i)), 3601)
  else if samples = 1201 * 1201 then
    some ((List.range samples).map (fun i => voidFilter (rawSample data i)), 1201)
  else
    none

/-- `HgtProvider::hgt_tile_bounds`: the 1°×1° bounds of a degree-keyed tile. -/
def hgt_tile_bounds (coord : TileCoord) : QBounds :=
  { min_lat := (coord.y : ℚ)
    max_lat := (coord.y : ℚ) + 1
    min_lon := (coord.x : ℚ)
    max_lon := (coord.x : ℚ) + 1 }

/-- Decoded tile payload produced by `HgtProvider::fetch_tile`. -/
structure HgtTile where
  coord : TileCoord
  bounds : QBounds
  elevation : List ℤ
  elev_rows : ℕ
  elev_cols : ℕ
deriving DecidableEq

/-- `HgtProvider::fetch_tile`, parameterised by the raw byte stream the
provider acquired for the tile (disk cache or network; I/O itself is out of
scope).  An empty acquisition or a failed parse yields `none`. -/
def fetch_tile (coord : TileCoord) (raw : List ℕ) : Option HgtTile :=
  if raw = [] then none
  else
    match read_hgt raw with
    | none => none
    | some (elev, dim) =>
        if elev = [] then none
        else some ⟨coord, hgt_tile_bounds coord, elev, dim, dim⟩

theorem rawSample_bounds (data : List ℕ) (i : ℕ) :
    -32768 ≤ rawSample data i ∧ rawSample data i ≤ 32767 := by
  unfold rawSample
  dsimp only
  have hhi : data.getD (2 * i) 0 % 256 ≤ 255 :=
    Nat.le_of_lt_succ (Nat.mod_lt _ (by norm_num))
  have hlo : data.getD (2 * i + 1) 0 % 256 ≤ 255 :=
    Nat.le_of_lt_succ (Nat.mod_lt _ (by norm_num))
  have hu : data.getD (2 * i) 0 % 256 * 256 + data.getD (2 * i + 1) 0 % 256 ≤ 65535 := by
    have := Nat.mul_le_mul_right 256 hhi
    omega
  split <;> omega

theorem voidFilter_bounds (v : ℤ) (hv : v ≤ 32767) :
    -1000 ≤ voidFilter v ∧ voidFilter v ≤ 32767 := by
  unfold voidFilter
  split <;> omega

end Hgt

/-- C8: the HGT decoder succeeds exactly when the byte stream holds
3601·3601 or 1201·1201 int16 samples; on success it decodes big-endian
signed int16 samples, zeroes every value strictly below −1000, and returns
the matching square grid; on any other size `fetch_tile` returns a null
result. -/
theorem C8_hgt_decoder (coord : TileCoord) (data : List ℕ) :
    ((Hgt.read_hgt data).isSome ↔
      data.length / 2 = 3601 * 3601 ∨ data.length / 2 = 1201 * 1201)
    ∧ (∀ elev dim, Hgt.read_hgt data = some (elev, dim) →
        (dim = 3601 ∨ dim = 1201)
        ∧ dim * dim = data.length / 2
        ∧ elev.length = data.length / 2
        ∧ (∀ i, i < elev.length →
            elev.getD i 0 = Hgt.voidFilter (Hgt.rawSample data i))
        ∧ (∀ i, i < elev.length → Hgt.rawSample data i < -1000 → elev.getD i 0 = 0)
        ∧ (∀ v ∈ elev, -1000 ≤ v ∧ v ≤ 32767))
    ∧ (¬(data.length / 2 = 3601 * 3601 ∨ data.length / 2 = 1201 * 1201) →
        Hgt.fetch_tile coord data = none) := by
  refine ⟨?_, ?_, ?_⟩
  · unfold Hgt.read_hgt
    dsimp only
    split
    · simp_all
    · split <;> simp_all
  · intro elev dim hsome
    have hgrid : elev = (List.range (data.length / 2)).map
        (fun i => Hgt.voidFilter (Hgt.rawSample data i)) ∧
        dim * dim = data.length / 2 ∧ (dim = 3601 ∨ dim = 1201) := by
      unfold Hgt.read_hgt at hsome
      dsimp only at hsome
      split at hsome
      · simp only [Option.some.injEq, Prod.mk.injEq] at hsome
        obtain ⟨h1, h2⟩ := hsome
        subst h2
        exact ⟨h1.symm, by omega, by omega⟩
      · split at hsome
        · simp only [Option.some.injEq, Prod.mk.injEq] at hsome
          obtain ⟨h1, h2⟩ := hsome
          subst h2
          exact ⟨h1.symm, by omega, by omega⟩
        · exact absurd hsome (by simp)
    obtain ⟨helev, hdim, hdim2⟩ := hgrid
    have hlen : elev.length = data.length / 2 := by simp [helev]
    refine ⟨hdim2, hdim, hlen, ?_, ?_, ?_⟩
    · intro i hi
      rw [hlen] at hi
      rw [helev, List.getD_eq_getElem _ _ (by simpa using hi)]
      simp
    · intro i hi hraw
      rw [hlen] at hi
      rw [helev, List.getD_eq_getElem _ _ (by simpa using hi)]
      simp [Hgt.voidFilter, hraw]
    · intro v hv
      rw [helev] at hv
      obtain ⟨i, _, rfl⟩ := List.mem_map.mp hv
      exact Hgt.voidFilter_bounds _ (Hgt.rawSample_bounds data i).2
  · intro hbad
    unfold Hgt.fetch_tile
    have hnone : Hgt.read_hgt data = none := by
      unfold Hgt.read_hgt
      dsimp only
      split
      · exact absurd (Or.inl (by omega)) hbad
      · split
        · exact absurd (Or.inr (by omega)) hbad
        · rfl
    split
    · rfl
    · rw [hnone]

/-- Witness for C8 at a concrete byte stream of a valid SRTM3 size. -/
theorem C8_hgt_decoder_witness :
    (Hgt.read_hgt (List.replicate (2 * (1201 * 1201)) 255)).isSome := by
  rw [(C8_hgt_decoder ⟨-1, 0, 0⟩ (List.replicate (2 * (1201 * 1201)) 255)).1]
  right
  rw [List.length_replicate]

/-! ## LRU tile cache (`src/tile/tile_cache.cpp`) -/

namespace Cache

/-- The cache's two data structures, mirrored separately as in the source:
the LRU list (`m_lru`, front = most recently used) and the coord→tile map
(`m_map`, modelled as an association list; tiles are opaque payloads). -/
structure CacheState where
  lru : List TileCoord
  map : List (TileCoord × ℕ)
deriving DecidableEq

/-- Lookup in `m_map` (`m_map.find(coord)`). -/
def mapFind (m : List (TileCoord × ℕ)) (c : TileCoord) : Option (TileCoord × ℕ) :=
  m.find? (fun p => p.1 = c)

/-- Key removal from `m_map` (`m_map.erase`). -/
def mapErase (m : List (TileCoord × ℕ)) (c : TileCoord) : List (TileCoord × ℕ) :=
  m.filter (fun p => p.1 ≠ c)

/-- Value replacement for an existing key (`it->second.tile = std::move(tile)`). -/
def mapSet (m : List (TileCoord × ℕ)) (c : TileCoord) (v : ℕ) : List (TileCoord × ℕ) :=
  m.map (fun p => if p.1 = c then (c, v) else p)

/-- `TileCache::evict_lru`: pop the back of the LRU list and erase that key
from the map; a no-op when the list is empty. -/
def evict_lru (s : CacheState) : CacheState :=
  match s.lru.getLast? with
  | none => s
  | some oldest => { lru := s.lru.dropLast, map := mapErase s.map oldest }

/-- The `while (m_map.size() >= m_max_tiles) evict_lru();` loop of
`TileCache::upload`, with explicit fuel (each productive iteration removes
one entry, so `map.length + 1` fuel is enough for every state the code can
reach). -/
def evictLoop (k : ℕ) : ℕ → CacheState → CacheState
  | 0, s => s
  | fuel + 1, s => if k ≤ s.map.length then evictLoop k fuel (evict_lru s) else s

/-- `TileCache::upload`: replace-and-touch when the key exists, otherwise
evict down below capacity and insert at the front of the LRU list. -/
def upload (k : ℕ) (c : TileCoord) (v : ℕ) (s : CacheState) : CacheState :=
  if (mapFind s.map c).isSome then
    { lru := c :: s.lru.erase c, map := mapSet s.map c v }
  else
    let s' := evictLoop k (s.map.length + 1) s
    { lru := c :: s'.lru, map := s'.map ++ [(c, v)] }

/-- `TileCache::get` / `TileCache::touch`: move the key to the LRU front if
present (both have the same effect on the cache state). -/
def touch (c : TileCoord) (s : CacheState) : CacheState :=
  if (mapFind s.map c).isSome then
    { lru := c :: s.lru.erase c, map := s.map }
  else s

/-- `TileCache::evict`: remove one specific key. -/
def evict (c : TileCoord) (s : CacheState) : CacheState :=
  if (mapFind s.map c).isSome then
    { lru := s.lru.erase c, map := mapErase s.map c }
  else s

/-- `TileCache::clear`. -/
def clear (_s : CacheState) : CacheState := { lru := [], map := [] }

/-- One cache operation. -/
inductive CacheOp where
  | upload (c : TileCoord) (v : ℕ)
  | get (c : TileCoord)
  | touch (c : TileCoord)
  | evict (c : TileCoord)
  | clear
deriving DecidableEq

/-- Apply one operation (`get` and `touch` act identically on the state). -/
def step (k : ℕ) (op : CacheOp) (s : CacheState) : CacheState :=
  match op with
  | .upload c v => upload k c v s
  | .get c => touch c s
  | .touch c => touch c s
  | .evict c => evict c s
  | .clear => clear s

/-- Run a sequence of operations from a state. -/
def run (k : ℕ) (ops : List CacheOp) (s : CacheState) : CacheState :=
  ops.foldl (fun s op => step k op s) s

/-- The empty cache. -/
def init : CacheState := { lru := [], map := [] }

/-- Key list of the map. -/
def keys (m : List (TileCoord × ℕ)) : List TileCoord := m.map (·.1)

/-- Keys inserted by a sequence of upload operations. -/
def uploadKeys (ops : List CacheOp) : List TileCoord :=
  ops.filterMap (fun op => match op with | .upload c _ => some c | _ => none)

/-- True when the operation sequence uses only `upload`/`get`/`touch`. -/
def touchOnly (ops : List CacheOp) : Bool :=
  ops.all (fun op => match op with
    | .upload _ _ => true
    | .get _ => true
    | .touch _ => true
    | _ => false)

/-- Most-recently-touched-first history of keys: uploads always touch, while
`get`/`touch` touch only when the key is resident (in the first `k` entries). -/
def mruUpd (k : ℕ) (H : List TileCoord) (op : CacheOp) : List TileCoord :=
  match op with
  | .upload c _ => c :: H.erase c
  | .get c => if c ∈ H.take k then c :: H.erase c else H
  | .touch c => if c ∈ H.take k then c :: H.erase c else H
  | _ => H

/-- Fold of `mruUpd` over an operation sequence. -/
def mruFold (k : ℕ) (H : List TileCoord) (ops : List CacheOp) : List TileCoord :=
  ops.foldl (mruUpd k) H

/-- The most-recently-touched key history of a whole run. -/
def mruList (k : ℕ) (ops : List CacheOp) : List TileCoord := mruFold k [] ops

theorem mapFind_isSome (m : List (TileCoord × ℕ)) (c : TileCoord) :
    (mapFind m c).isSome ↔ c ∈ keys m := by
  simp only [mapFind, keys, List.find?_isSome, List.mem_map, decide_eq_true_eq]

theorem keys_mapErase (m : List (TileCoord × ℕ)) (c : TileCoord) :
    keys (mapErase m c) = (keys m).filter (fun x => x ≠ c) := by
  unfold mapErase keys
  simp only [ne_eq, decide_not]
  induction m with
  | nil => rfl
  | cons p t ih =>
      by_cases h : p.1 = c
      · simp [List.filter_cons, h, ih]
      · simp [List.filter_cons, h, ih]

theorem keys_mapSet (m : List (TileCoord × ℕ)) (c : TileCoord) (v : ℕ) :
    keys (mapSet m c v) = keys m := by
  unfold mapSet keys
  rw [List.map_map]
  apply List.map_congr_left
  intro p _
  by_cases h : p.1 = c
  · simp [h]
  · simp [h]

theorem keys_append (m₁ m₂ : List (TileCoord × ℕ)) :
    keys (m₁ ++ m₂) = keys m₁ ++ keys m₂ := by
  simp [keys]

/-- Well-formedness: LRU list has no duplicates and is a permutation of the
map's key set (so both structures hold the same keys). -/
def WF (s : CacheState) : Prop := s.lru.Nodup ∧ s.lru.Perm (keys s.map)

theorem WF_init : WF Cache.init := ⟨List.nodup_nil, List.Perm.refl _⟩

theorem erase_filter_of_nodup (l : List TileCoord) (hl : l.Nodup) (c : TileCoord) :
    l.erase c = l.filter (fun x => x ≠ c) := by
  rw [List.Nodup.erase_eq_filter hl]
  congr 1
  funext x
  simp only [bne, ne_eq, decide_not]
  rfl

theorem WF_evict_lru (s : CacheState) (h : WF s) : WF (evict_lru s) := by
  obtain ⟨hnd, hperm⟩ := h
  unfold evict_lru
  cases hlast : s.lru.getLast? with
  | none => exact ⟨hnd, hperm⟩
  | some oldest =>
      have hne : s.lru ≠ [] := by
        intro h0
        rw [h0] at hlast
        simp at hlast
      have hoe : oldest = s.lru.getLast hne := by
        have h2 := List.getLast?_eq_getLast s.lru hne
        rw [hlast, Option.some.injEq] at h2
        exact h2
      have hdecomp : s.lru.dropLast ++ [oldest] = s.lru := by
        rw [hoe]
        exact List.dropLast_append_getLast hne
      have hnd2 : (s.lru.dropLast ++ [oldest]).Nodup := by
        rw [hdecomp]; exact hnd
      have hnotmem : oldest ∉ s.lru.dropLast := by
        intro hm
        exact (List.disjoint_of_nodup_append hnd2) hm (List.mem_singleton_self oldest)
      have herase : s.lru.erase oldest = s.lru.dropLast := by
        conv_lhs => rw [← hdecomp]
        rw [List.erase_append_right _ hnotmem]
        simp
      refine ⟨List.Nodup.sublist (List.dropLast_sublist _) hnd, ?_⟩
      rw [keys_mapErase, ← herase, erase_filter_of_nodup _ hnd]
      exact hperm.filter _

theorem touch_map (c : TileCoord) (s : CacheState) : (touch c s).map = s.map := by
  unfold touch
  split <;> rfl

theorem WF_touch (c : TileCoord) (s : CacheState) (h : WF s) : WF (touch c s) := by
  obtain ⟨hnd, hperm⟩ := h
  unfold touch
  split
  · next hfind =>
      have hc : c ∈ s.lru := hperm.mem_iff.mpr ((mapFind_isSome s.map c).mp hfind)
      refine ⟨List.nodup_cons.mpr ⟨hnd.not_mem_erase, hnd.erase c⟩, ?_⟩
      exact ((List.perm_cons_erase hc).symm).trans hperm
  · exact ⟨hnd, hperm⟩

theorem evict_lru_lru_sublist (s : CacheState) : (evict_lru s).lru.Sublist s.lru := by
  unfold evict_lru
  cases s.lru.getLast? with
  | none => exact List.Sublist.refl _
  | some oldest => exact List.dropLast_sublist _

theorem evictLoop_WF (k fuel : ℕ) (s : CacheState) (h : WF s) :
    WF (evictLoop k fuel s) := by
  induction fuel generalizing s with
  | zero => exact h
  | succ n ih =>
      unfold evictLoop
      split
      · exact ih _ (WF_evict_lru s h)
      · exact h

theorem evictLoop_lru_sublist (k fuel : ℕ) (s : CacheState) :
    (evictLoop k fuel s).lru.Sublist s.lru := by
  induction fuel generalizing s with
  | zero => exact List.Sublist.refl _
  | succ n ih =>
      unfold evictLoop
      split
      · exact (ih (evict_lru s)).trans (evict_lru_lru_sublist s)
      · exact List.Sublist.refl _

theorem WF_upload (k : ℕ) (c : TileCoord) (v : ℕ) (s : CacheState) (h : WF s) :
    WF (upload k c v s) := by
  obtain ⟨hnd, hperm⟩ := h
  unfold upload
  split
  · next hfind =>
      have hc : c ∈ s.lru := hperm.mem_iff.mpr ((mapFind_isSome s.map c).mp hfind)
      refine ⟨List.nodup_cons.mpr ⟨hnd.not_mem_erase, hnd.erase c⟩, ?_⟩
      rw [keys_mapSet]
      exact ((List.perm_cons_erase hc).symm).trans hperm
  · next hfind =>
      have hcs : c ∉ s.lru := by
        intro hmem
        exact hfind ((mapFind_isSome s.map c).mpr (hperm.mem_iff.mp hmem))
      have hwf : WF (evictLoop k (s.map.length + 1) s) :=
        evictLoop_WF k (s.map.length + 1) s ⟨hnd, hperm⟩
      have hsub := evictLoop_lru_sublist k (s.map.length + 1) s
      have hcs2 : c ∉ (evictLoop k (s.map.length + 1) s).lru :=
        fun hmem => hcs (hsub.mem hmem)
      refine ⟨List.nodup_cons.mpr ⟨hcs2, hwf.1⟩, ?_⟩
      have hk2 : keys ((evictLoop k (s.map.length + 1) s).map ++ [(c, v)])
          = keys (evictLoop k (s.map.length + 1) s).map ++ [c] := by
        simp [keys]
      rw [hk2]
      exact ((List.perm_append_singleton c _).symm).trans (hwf.2.append_right [c])

theorem WF_evict (c : TileCoord) (s : CacheState) (h : WF s) : WF (evict c s) := by
  obtain ⟨hnd, hperm⟩ := h
  unfold evict
  split
  · refine ⟨hnd.erase c, ?_⟩
    rw [keys_mapErase, erase_filter_of_nodup _ hnd]
    exact hperm.filter _
  · exact ⟨hnd, hperm⟩

theorem WF_step (k : ℕ) (op : CacheOp) (s : CacheState) (h : WF s) :
    WF (step k op s) := by
  cases op with
  | upload c v => exact WF_upload k c v s h
  | get c => exact WF_touch c s h
  | touch c => exact WF_touch c s h
  | evict c => exact WF_evict c s h
  | clear => exact ⟨List.nodup_nil, List.Perm.refl _⟩

theorem WF_run (k : ℕ) (ops : List CacheOp) (s : CacheState) (h : WF s) :
    WF (run k ops s) := by
  induction ops generalizing s with
  | nil => exact h
  | cons op t ih => exact ih _ (WF_step k op s h)

theorem evictLoop_of_lt (k fuel : ℕ) (s : CacheState) (h : s.map.length < k) :
    evictLoop k fuel s = s := by
  cases fuel with
  | zero => rfl
  | succ n =>
      unfold evictLoop
      rw [if_neg (by omega)]

theorem lru_length_eq_map_length (s : CacheState) (h : WF s) :
    s.lru.length = s.map.length := by
  have := h.2.length_eq
  simpa [keys] using this

theorem evict_lru_lru_of_ne (s : CacheState) (hne : s.lru ≠ []) :
    (evict_lru s).lru = s.lru.dropLast := by
  unfold evict_lru
  cases hlast : s.lru.getLast? with
  | none =>
      rw [List.getLast?_eq_none_iff] at hlast
      exact absurd hlast hne
  | some oldest => rfl

theorem upload_new_below (k : ℕ) (c : TileCoord) (v : ℕ) (s : CacheState)
    (hfind : ¬ (mapFind s.map c).isSome = true) (hlen : s.map.length < k) :
    upload k c v s = { lru := c :: s.lru, map := s.map ++ [(c, v)] } := by
  unfold upload
  rw [if_neg hfind]
  rw [evictLoop_of_lt k (s.map.length + 1) s hlen]

theorem upload_new_at_cap (k : ℕ) (c : TileCoord) (v : ℕ) (s : CacheState)
    (h : WF s) (hk : 1 ≤ k)
    (hfind : ¬ (mapFind s.map c).isSome = true) (hlen : s.map.length = k) :
    upload k c v s =
      { lru := c :: (evict_lru s).lru, map := (evict_lru s).map ++ [(c, v)] } := by
  unfold upload
  rw [if_neg hfind]
  have hne : s.lru ≠ [] := by
    intro h0
    have := lru_length_eq_map_length s h
    rw [h0] at this
    simp at this
    omega
  have hlt : (evict_lru s).map.length < k := by
    have h1 := lru_length_eq_map_length _ (WF_evict_lru s h)
    rw [evict_lru_lru_of_ne s hne] at h1
    have h2 := lru_length_eq_map_length s h
    have h3 : s.lru.dropLast.length = s.lru.length - 1 := List.length_dropLast _
    omega
  have hloop : evictLoop k (s.map.length + 1) s = evict_lru s := by
    rw [hlen]
    show evictLoop k (k + 1) s = evict_lru s
    unfold evictLoop
    rw [if_pos (by omega)]
    exact evictLoop_of_lt k k (evict_lru s) hlt
  rw [hloop]

theorem take_erase_of_mem (c : TileCoord) :
    ∀ (H : List TileCoord) (k : ℕ), c ∈ H.take k →
      (H.take k).erase c = (H.erase c).take (k - 1) := by
  intro H
  induction H with
  | nil => intro k hk; simp at hk
  | cons a T ih =>
      intro k hk
      cases k with
      | zero => simp at hk
      | succ j =>
          rw [List.take_succ_cons] at hk ⊢
          by_cases hca : c = a
          · subst hca
            rw [List.erase_cons_head, List.erase_cons_head]
            simp
          · have hcT : c ∈ T.take j := by
              cases List.mem_cons.mp hk with
              | inl h0 => exact absurd h0 hca
              | inr h0 => exact h0
            have hj : 1 ≤ j := by
              by_contra h0
              push_neg at h0
              interval_cases j
              simp at hcT
            have hbne : ¬(a == c) = true := by
              simp only [beq_iff_eq]
              intro h0
              exact hca h0.symm
            obtain ⟨m, rfl⟩ : ∃ m, j = m + 1 := ⟨j - 1, by omega⟩
            have hred : m + 1 + 1 - 1 = m + 1 := rfl
            rw [List.erase_cons_tail hbne, List.erase_cons_tail hbne, hred,
              List.take_succ_cons, ih (m + 1) hcT]
            simp

theorem take_erase_of_not_mem_take (c : TileCoord) :
    ∀ (H : List TileCoord) (k : ℕ), c ∉ H.take k →
      (H.erase c).take (k - 1) = H.take (k - 1) := by
  intro H
  induction H with
  | nil => intro k _; simp
  | cons a T ih =>
      intro k hk
      cases k with
      | zero => simp
      | succ j =>
          rw [List.take_succ_cons] at hk
          have hca : c ≠ a := fun h0 => hk (h0 ▸ List.mem_cons_self a _)
          have hcT : c ∉ T.take j := fun h0 => hk (List.mem_cons_of_mem a h0)
          have hbne : ¬(a == c) = true := by
            simp only [beq_iff_eq]
            intro h0
            exact hca h0.symm
          rw [List.erase_cons_tail hbne]
          cases j with
          | zero => simp
          | succ m =>
              have hred : m + 1 + 1 - 1 = m + 1 := rfl
              rw [hred, List.take_succ_cons, List.take_succ_cons]
              have := ih (m + 1) hcT
              simp only [Nat.add_sub_cancel] at this
              rw [this]

theorem touch_of_found (c : TileCoord) (s : CacheState)
    (hfind : (mapFind s.map c).isSome = true) :
    touch c s = { lru := c :: s.lru.erase c, map := s.map } := by
  unfold touch
  rw [if_pos hfind]

theorem touch_of_not_found (c : TileCoord) (s : CacheState)
    (hfind : ¬ (mapFind s.map c).isSome = true) :
    touch c s = s := by
  unfold touch
  rw [if_neg hfind]

theorem upload_found (k : ℕ) (c : TileCoord) (v : ℕ) (s : CacheState)
    (hfind : (mapFind s.map c).isSome = true) :
    upload k c v s = { lru := c :: s.lru.erase c, map := mapSet s.map c v } := by
  unfold upload
  rw [if_pos hfind]

/-- Invariant tying a cache state to the most-recently-touched history `H`:
the LRU list is the first `k` entries of `H`. -/
def Inv (k : ℕ) (s : CacheState) (H : List TileCoord) : Prop :=
  s.lru = H.take k ∧ H.Nodup ∧ WF s

theorem Inv_init (k : ℕ) : Inv k Cache.init [] :=
  ⟨by simp [Cache.init], List.nodup_nil, WF_init⟩

theorem Inv_upload (k : ℕ) (hk : 1 ≤ k) (c : TileCoord) (v : ℕ)
    (s : CacheState) (H : List TileCoord) (h : Inv k s H) :
    Inv k (upload k c v s) (c :: H.erase c) := by
  obtain ⟨hlru, hndH, hwf⟩ := h
  obtain ⟨m, rfl⟩ : ∃ m, k = m + 1 := ⟨k - 1, by omega⟩
  refine ⟨?_, List.nodup_cons.mpr ⟨hndH.not_mem_erase, hndH.erase c⟩,
    WF_upload _ c v s hwf⟩
  rw [List.take_succ_cons]
  by_cases hfind : (mapFind s.map c).isSome = true
  · have hcHk : c ∈ H.take (m + 1) := by
      rw [← hlru]
      exact hwf.2.mem_iff.mpr ((mapFind_isSome s.map c).mp hfind)
    rw [upload_found _ c v s hfind]
    have := take_erase_of_mem c H (m + 1) hcHk
    simp only [Nat.add_sub_cancel] at this
    rw [hlru, this]
  · have hcs : c ∉ s.lru := by
      intro hmem
      exact hfind ((mapFind_isSome s.map c).mpr (hwf.2.mem_iff.mp hmem))
    have hcHk : c ∉ H.take (m + 1) := by
      rw [← hlru]
      exact hcs
    have hlen0 : s.lru.length = s.map.length := lru_length_eq_map_length s hwf
    have hlenlru : s.lru.length = min (m + 1) H.length := by
      rw [hlru, List.length_take]
    by_cases hcap : m + 1 ≤ H.length
    · have hcap2a : s.map.length = m + 1 := by omega
      rw [upload_new_at_cap (m + 1) c v s hwf hk hfind hcap2a]
      have hne : s.lru ≠ [] := by
        intro h0
        rw [h0] at hlenlru
        simp at hlenlru
        omega
      rw [evict_lru_lru_of_ne s hne, hlru, List.dropLast_eq_take, List.length_take,
        List.take_take]
      have h1 : ((m + 1) ⊓ H.length - 1) ⊓ (m + 1) = m := by
        omega
      rw [h1]
      have := take_erase_of_not_mem_take c H (m + 1) hcHk
      simp only [Nat.add_sub_cancel] at this
      rw [this]
    · push_neg at hcap
      have hcap2 : s.map.length < m + 1 := by omega
      rw [upload_new_below (m + 1) c v s hfind hcap2]
      have hHfull : H.take (m + 1) = H := List.take_of_length_le (by omega)
      have hcH : c ∉ H := by
        rw [← hHfull]
        exact hcHk
      rw [hlru, hHfull, List.erase_of_not_mem hcH,
        List.take_of_length_le (by omega)]

theorem Inv_touch (k : ℕ) (hk : 1 ≤ k) (c : TileCoord)
    (s : CacheState) (H : List TileCoord) (h : Inv k s H) :
    Inv k (touch c s) (if c ∈ H.take k then c :: H.erase c else H) := by
  obtain ⟨hlru, hndH, hwf⟩ := h
  by_cases hck : c ∈ H.take k
  · rw [if_pos hck]
    have hc_lru : c ∈ s.lru := by rw [hlru]; exact hck
    have hfind : (mapFind s.map c).isSome = true :=
      (mapFind_isSome s.map c).mpr (hwf.2.mem_iff.mp hc_lru)
    refine ⟨?_, List.nodup_cons.mpr ⟨hndH.not_mem_erase, hndH.erase c⟩,
      WF_touch c s hwf⟩
    rw [touch_of_found c s hfind]
    obtain ⟨m, rfl⟩ : ∃ m, k = m + 1 := ⟨k - 1, by omega⟩
    rw [List.take_succ_cons]
    have := take_erase_of_mem c H (m + 1) hck
    simp only [Nat.add_sub_cancel] at this
    rw [hlru, this]
  · rw [if_neg hck]
    have hc_lru : c ∉ s.lru := by rw [hlru]; exact hck
    have hfind : ¬ (mapFind s.map c).isSome = true := by
      intro h0
      exact hc_lru (hwf.2.mem_iff.mpr ((mapFind_isSome s.map c).mp h0))
    rw [touch_of_not_found c s hfind]
    exact ⟨hlru, hndH, hwf⟩

theorem Inv_run_touchOnly (k : ℕ) (hk : 1 ≤ k) (ops : List CacheOp)
    (hops : touchOnly ops = true) (s : CacheState) (H : List TileCoord)
    (h : Inv k s H) : Inv k (run k ops s) (mruFold k H ops) := by
  induction ops generalizing s H with
  | nil => exact h
  | cons op t ih =>
      simp only [touchOnly, List.all_cons, Bool.and_eq_true] at hops
      have hops2 : touchOnly t = true := hops.2
      have hstep : Inv k (step k op s) (mruUpd k H op) := by
        cases op with
        | upload c v => exact Inv_upload k hk c v s H h
        | get c => exact Inv_touch k hk c s H h
        | touch c => exact Inv_touch k hk c s H h
        | evict c => exact absurd hops.1 (by simp)
        | clear => exact absurd hops.1 (by simp)
      exact ih hops2 _ _ hstep

theorem cons_erase_mem (x c : TileCoord) (H : List TileCoord) :
    x ∈ c :: H.erase c ↔ x = c ∨ x ∈ H := by
  by_cases hxc : x = c
  · simp [hxc]
  · simp only [List.mem_cons, hxc, false_or]
    exact List.mem_erase_of_ne hxc

theorem mruFold_mem (k : ℕ) (ops : List CacheOp) (hops : touchOnly ops = true) :
    ∀ (H : List TileCoord) (x : TileCoord),
      x ∈ mruFold k H ops ↔ x ∈ H ∨ x ∈ uploadKeys ops := by
  induction ops with
  | nil => intro H x; simp [mruFold, uploadKeys]
  | cons op t ih =>
      intro H x
      simp only [touchOnly, List.all_cons, Bool.and_eq_true] at hops
      have step1 : mruFold k H (op :: t) = mruFold k (mruUpd k H op) t := rfl
      rw [step1, ih hops.2]
      cases op with
      | upload c v =>
          simp only [mruUpd, uploadKeys, List.filterMap_cons]
          rw [cons_erase_mem]
          simp only [List.mem_cons]
          tauto
      | get c =>
          simp only [mruUpd, uploadKeys, List.filterMap_cons]
          by_cases hck : c ∈ H.take k
          · rw [if_pos hck, cons_erase_mem]
            have hcH : c ∈ H := List.take_subset k H hck
            constructor
            · rintro ((rfl | h1) | h2)
              · exact Or.inl hcH
              · exact Or.inl h1
              · exact Or.inr h2
            · rintro (h1 | h2)
              · exact Or.inl (Or.inr h1)
              · exact Or.inr h2
          · rw [if_neg hck]
      | touch c =>
          simp only [mruUpd, uploadKeys, List.filterMap_cons]
          by_cases hck : c ∈ H.take k
          · rw [if_pos hck, cons_erase_mem]
            have hcH : c ∈ H := List.take_subset k H hck
            constructor
            · rintro ((rfl | h1) | h2)
              · exact Or.inl hcH
              · exact Or.inl h1
              · exact Or.inr h2
            · rintro (h1 | h2)
              · exact Or.inl (Or.inr h1)
              · exact Or.inr h2
          · rw [if_neg hck]
      | evict c => exact absurd hops.1 (by simp)
      | clear => exact absurd hops.1 (by simp)

theorem nodup_length_eq_dedup (H L : List TileCoord) (hnd : H.Nodup)
    (hmem : ∀ x, x ∈ H ↔ x ∈ L) : H.length = L.dedup.length := by
  have h1 : H.toFinset = L.toFinset := by
    ext x
    simp only [List.mem_toFinset]
    exact hmem x
  have h2 := List.toFinset_card_of_nodup hnd
  have h3 := List.card_toFinset L
  rw [← h2, h1, h3]

end Cache

/-- C4 (amended): over `upload`/`get`/`touch` sequences the cache holds the
`min(k, distinct)` most-recently-touched keys — exactly `k` of them once more
than `k` distinct keys have been inserted; eviction happens only when
inserting a new key at capacity (`get`/`touch` never change the map,
replacement preserves the key set, and an insert below capacity only
appends); and the LRU list stays duplicate-free and a permutation of the
map's key set under every operation, including `evict`, `clear` and
replacement. -/
theorem C4_lru_cache (k : ℕ) (hk : 1 ≤ k) (ops : List Cache.CacheOp) :
    ((Cache.run k ops Cache.init).lru.Nodup
      ∧ (Cache.run k ops Cache.init).lru.Perm
          (Cache.keys (Cache.run k ops Cache.init).map))
    ∧ (Cache.touchOnly ops = true →
        (Cache.run k ops Cache.init).lru = (Cache.mruList k ops).take k
        ∧ (k < (Cache.uploadKeys ops).dedup.length →
            (Cache.run k ops Cache.init).lru.length = k
            ∧ (Cache.run k ops Cache.init).map.length = k))
    ∧ (∀ c s, (Cache.touch c s).map = s.map)
    ∧ (∀ c v s, (Cache.mapFind s.map c).isSome = true →
        Cache.keys (Cache.upload k c v s).map = Cache.keys s.map)
    ∧ (∀ c v s, ¬ (Cache.mapFind s.map c).isSome = true → s.map.length < k →
        (Cache.upload k c v s).map = s.map ++ [(c, v)])
    ∧ (∀ c v s, Cache.WF s → ¬ (Cache.mapFind s.map c).isSome = true →
        s.map.length = k →
        (Cache.upload k c v s).map = (Cache.evict_lru s).map ++ [(c, v)]) := by
  refine ⟨?_, ?_, ?_, ?_, ?_, ?_⟩
  · exact Cache.WF_run k ops Cache.init Cache.WF_init
  · intro hops
    have hinv := Cache.Inv_run_touchOnly k hk ops hops Cache.init [] (Cache.Inv_init k)
    obtain ⟨hlru, hnd, hwf⟩ := hinv
    have hlru2 : (Cache.run k ops Cache.init).lru = (Cache.mruList k ops).take k := hlru
    refine ⟨hlru2, ?_⟩
    intro hbig
    have hlen : (Cache.mruList k ops).length = (Cache.uploadKeys ops).dedup.length := by
      refine Cache.nodup_length_eq_dedup _ _ hnd ?_
      intro x
      have h0 := Cache.mruFold_mem k ops hops [] x
      simpa using h0
    have hlru_len : (Cache.run k ops Cache.init).lru.length = k := by
      rw [hlru2, List.length_take]
      omega
    refine ⟨hlru_len, ?_⟩
    rw [← Cache.lru_length_eq_map_length _ hwf]
    exact hlru_len
  · intro c s
    exact Cache.touch_map c s
  · intro c v s hfind
    rw [Cache.upload_found k c v s hfind]
    exact Cache.keys_mapSet s.map c v
  · intro c v s hfind hlen
    rw [Cache.upload_new_below k c v s hfind hlen]
  · intro c v s hwf hfind hlen
    rw [Cache.upload_new_at_cap k c v s hwf hk hfind hlen]

/-- Counterexample to C4 as stated: with capacity 1, inserting two distinct
keys and then calling `evict` leaves the cache with 0 entries, not
`capacity` entries, even though more than `capacity` distinct coordinates
were inserted — so the claim fails once `evict`/`clear` are allowed in the
sequence. -/
theorem C4_lru_cache_counterexample :
    1 ≤ 1
    ∧ 1 < (Cache.uploadKeys
        [Cache.CacheOp.upload ⟨0, 0, 0⟩ 0, Cache.CacheOp.upload ⟨0, 0, 1⟩ 0,
          Cache.CacheOp.evict ⟨0, 0, 1⟩]).dedup.length
    ∧ (Cache.run 1
        [Cache.CacheOp.upload ⟨0, 0, 0⟩ 0, Cache.CacheOp.upload ⟨0, 0, 1⟩ 0,
          Cache.CacheOp.evict ⟨0, 0, 1⟩] Cache.init).map.length ≠ 1 := by
  refine ⟨le_refl 1, ?_, ?_⟩ <;> decide

/-- Witness for C4 at capacity 1 with two uploads: the cache holds exactly
the single most-recently-uploaded key. -/
theorem C4_lru_cache_witness :
    (Cache.run 1 [Cache.CacheOp.upload ⟨0, 0, 0⟩ 0, Cache.CacheOp.upload ⟨0, 0, 1⟩ 0]
        Cache.init).lru
      = (Cache.mruList 1
          [Cache.CacheOp.upload ⟨0, 0, 0⟩ 0, Cache.CacheOp.upload ⟨0, 0, 1⟩ 0]).take 1 :=
  ((C4_lru_cache 1 (le_refl 1)
    [Cache.CacheOp.upload ⟨0, 0, 0⟩ 0, Cache.CacheOp.upload ⟨0, 0, 1⟩ 0]).2.1
      (by decide)).1

/-! ## Async loader (`src/tile/async_loader.cpp`)

The loader is modelled as a labelled transition system whose atomic steps
are the mutex-protected critical sections of the source.  Providers are
modelled by a Bool recording whether the request's provider pointer is
non-null; results only ever carry successfully fetched coordinates, as in
the source (failures never enter `m_results`). -/

namespace Loader

/-- Loader state: the request queue (`m_requests`, each entry a coordinate
plus whether its provider pointer is non-null), the pending set
(`m_pending_set`), the single worker's current in-flight fetch (the local
`req` between dequeue and completion), the result queue (`m_results`,
coordinates of completed `TileData`), and a log of every `fetch_tile` call
issued to a provider. -/
structure LoaderState where
  requests : List (TileCoord × Bool)
  pending : Finset TileCoord
  inflight : Option TileCoord
  results : List TileCoord
  fetchLog : List TileCoord
deriving DecidableEq

/-- The loader right after `start()`: everything empty. -/
def init : LoaderState :=
  { requests := [], pending := ∅, inflight := none, results := [], fetchLog := [] }

/-- `AsyncLoader::request`: a no-op when the coordinate is already pending,
otherwise inserts into the pending set and appends to the queue. -/
def request (c : TileCoord) (prov : Bool) (s : LoaderState) : LoaderState :=
  if c ∈ s.pending then s
  else { s with pending := insert c s.pending, requests := s.requests ++ [(c, prov)] }

/-- The worker's dequeue step: pops the queue front; a null provider is
skipped and its coordinate erased from the pending set, otherwise the
fetch begins (`fetch_tile` is called).  The single worker is sequential:
it cannot dequeue while a fetch is still in flight, so the step is a no-op
when `inflight` is occupied. -/
def workerTake (s : LoaderState) : LoaderState :=
  if s.inflight ≠ none then s
  else
    match s.requests with
    | [] => s
    | (c, prov) :: rest =>
        if prov then
          { s with requests := rest, inflight := some c, fetchLog := s.fetchLog ++ [c] }
        else
          { s with requests := rest, pending := s.pending.erase c }

/-- The worker's completion step: on success the result is queued (pending
removal deferred to `poll_result`); on failure the coordinate is erased
from the pending set so it can be retried. -/
def workerDone (success : Bool) (s : LoaderState) : LoaderState :=
  match s.inflight with
  | none => s
  | some c =>
      if success then
        { s with inflight := none, results := s.results ++ [c] }
      else
        { s with inflight := none, pending := s.pending.erase c }

/-- `AsyncLoader::poll_result`: dequeues one result and only then erases
its coordinate from the pending set. -/
def poll_result (s : LoaderState) : LoaderState :=
  match s.results with
  | [] => s
  | c :: rest => { s with results := rest, pending := s.pending.erase c }

/-- `AsyncLoader::is_pending`. -/
def is_pending (c : TileCoord) (s : LoaderState) : Bool := c ∈ s.pending

/-- `AsyncLoader::clear_pending`: drops the queued requests and the whole
pending set; the in-flight fetch and the result queue are untouched. -/
def clear_pending (s : LoaderState) : LoaderState :=
  { s with requests := [], pending := ∅ }

/-- One atomic loader event. -/
inductive LoaderOp where
  | request (c : TileCoord) (prov : Bool)
  | take
  | done (success : Bool)
  | poll
  | clear
deriving DecidableEq

/-- Apply one event. -/
def step (op : LoaderOp) (s : LoaderState) : LoaderState :=
  match op with
  | .request c prov => request c prov s
  | .take => workerTake s
  | .done success => workerDone success s
  | .poll => poll_result s
  | .clear => clear_pending s

/-- Run a sequence of events. -/
def run (ops : List LoaderOp) (s : LoaderState) : LoaderState :=
  ops.foldl (fun s op => step op s) s

/-- Alphabet of C2: the operations of the request/poll protocol
(no `clear_pending`), with every request carrying a non-null provider. -/
def protoOnly (ops : List LoaderOp) : Bool :=
  ops.all (fun op => match op with
    | .request _ prov => prov
    | .clear => false
    | _ => true)

/-- `True` when the event, fired in state `s`, removes `c` from the pending
set for one of the two sanctioned reasons: the main thread drains `c`'s
(successful) result via `poll_result`, or the worker observed a failed
fetch of `c`. -/
def removesC (c : TileCoord) (s : LoaderState) (op : LoaderOp) : Bool :=
  match op with
  | .poll => s.results.head? = some c
  | .done success => !success && s.inflight = some c
  | _ => false

/-- `True` when no event of the trace removes `c` (in the state where the
event fires). -/
def noRemove (c : TileCoord) : LoaderState → List LoaderOp → Bool
  | _, [] => true
  | s, op :: rest => !removesC c s op && noRemove c (step op s) rest

/-- Occurrences of `c` in the request queue. -/
def reqCount (c : TileCoord) (s : LoaderState) : ℕ :=
  s.requests.countP (fun r => r.1 = c)

/-- 1 when `c` is the in-flight fetch. -/
def inflight1 (c : TileCoord) (s : LoaderState) : ℕ :=
  if s.inflight = some c then 1 else 0

/-- Total multiplicity of `c` across queue, in-flight slot and results. -/
def multC (c : TileCoord) (s : LoaderState) : ℕ :=
  reqCount c s + inflight1 c s + s.results.count c

/-- The protocol invariant for a fixed coordinate `c`: `c` occurs at most
once across the queue / in-flight slot / result queue; it is pending exactly
when it occurs somewhere; queued providers are non-null; it is fetched at
most once, and once fetched it stays pending and out of the queue (until a
removal event, which the preservation lemma excludes). -/
def J (c : TileCoord) (s : LoaderState) : Prop :=
  s.fetchLog.count c ≤ 1
  ∧ multC c s ≤ 1
  ∧ (c ∈ s.pending ↔ multC c s = 1)
  ∧ (∀ r ∈ s.requests, r.2 = true)
  ∧ (1 ≤ s.fetchLog.count c → c ∈ s.pending ∧ reqCount c s = 0)

theorem J_init (c : TileCoord) : J c Loader.init := by
  refine ⟨?_, ?_, ?_, ?_, ?_⟩ <;>
    simp [Loader.init, multC, reqCount, inflight1]

theorem J_request (c c' : TileCoord) (p : Bool) (s : LoaderState)
    (h : J c s) (hp : p = true) : J c (request c' p s) := by
  obtain ⟨hf1, hm1, hiff, hprov, hfetch⟩ := h
  unfold request
  by_cases hcp : c' ∈ s.pending
  · rw [if_pos hcp]
    exact ⟨hf1, hm1, hiff, hprov, hfetch⟩
  · rw [if_neg hcp]
    by_cases hcc : c' = c
    · rw [hcc] at hcp ⊢
      have hmult0 : multC c s = 0 := by
        by_contra h0
        have : multC c s = 1 := by omega
        exact hcp (hiff.mpr this)
      have hfetch0 : s.fetchLog.count c = 0 := by
        by_contra h0
        exact hcp (hfetch (by omega)).1
      have hreq : reqCount c ({ s with
          pending := insert c s.pending,
          requests := s.requests ++ [(c, p)] }) = reqCount c s + 1 := by
        simp [reqCount, List.countP_append]
      have hmult : multC c ({ s with
          pending := insert c s.pending,
          requests := s.requests ++ [(c, p)] }) = multC c s + 1 := by
        simp only [multC, inflight1, hreq]
        ring
      refine ⟨hf1, by omega, ?_, ?_, ?_⟩
      · simp only [hmult, hmult0]
        simp
      · intro r hr
        rcases List.mem_append.mp hr with h1 | h1
        · exact hprov r h1
        · simp only [List.mem_singleton] at h1
          rw [h1, hp]
      · intro h0
        simp only at h0
        omega
    · have hreq : reqCount c ({ s with
          pending := insert c' s.pending,
          requests := s.requests ++ [(c', p)] }) = reqCount c s := by
        simp only [reqCount, List.countP_append]
        have : List.countP (fun r => decide (r.1 = c)) [(c', p)] = 0 := by
          simp [hcc]
        rw [this]
        omega
      have hmult : multC c ({ s with
          pending := insert c' s.pending,
          requests := s.requests ++ [(c', p)] }) = multC c s := by
        simp only [multC, inflight1, hreq]
      have hmem : c ∈ insert c' s.pending ↔ c ∈ s.pending := by
        rw [Finset.mem_insert]
        constructor
        · rintro (h0 | h0)
          · exact absurd h0.symm hcc
          · exact h0
        · exact Or.inr
      refine ⟨hf1, by omega, ?_, ?_, ?_⟩
      · rw [hmult]
        simp only [Finset.mem_insert]
        constructor
        · rintro (h0 | h0)
          · exact absurd h0.symm hcc
          · exact hiff.mp h0
        · intro h0
          exact Or.inr (hiff.mpr h0)
      · intro r hr
        rcases List.mem_append.mp hr with h1 | h1
        · exact hprov r h1
        · simp only [List.mem_singleton] at h1
          rw [h1, hp]
      · intro h0
        simp only at h0
        rw [hreq]
        have := hfetch h0
        exact ⟨hmem.mpr this.1, this.2⟩

theorem J_take (c : TileCoord) (s : LoaderState) (h : J c s) :
    J c (workerTake s) := by
  obtain ⟨hf1, hm1, hiff, hprov, hfetch⟩ := h
  unfold workerTake
  split
  · exact ⟨hf1, hm1, hiff, hprov, hfetch⟩
  · next hidle =>
      have hinf : s.inflight = none := by
        by_contra h0
        exact hidle h0
      cases hreqs : s.requests with
      | nil => exact ⟨hf1, hm1, hiff, hprov, hfetch⟩
      | cons hd rest =>
          obtain ⟨d, prov⟩ := hd
          have hprovd : prov = true := hprov (d, prov) (by rw [hreqs]; simp)
          subst hprovd
          show J c ({ s with
            requests := rest,
            inflight := some d,
            fetchLog := s.fetchLog ++ [d] })
          have hin0 : inflight1 c s = 0 := by
            simp [inflight1, hinf]
          by_cases hdc : d = c
          · subst hdc
            have hreq1 : 1 ≤ reqCount d s := by
              simp [reqCount, hreqs]
            have hfetch0 : s.fetchLog.count d = 0 := by
              by_contra h0
              have := (hfetch (by omega)).2
              omega
            have hreqc : reqCount d ({ s with
                requests := rest,
                inflight := some d,
                fetchLog := s.fetchLog ++ [d] }) = reqCount d s - 1 := by
              simp [reqCount, hreqs]
            have hin : inflight1 d ({ s with
                requests := rest,
                inflight := some d,
                fetchLog := s.fetchLog ++ [d] }) = 1 := by
              simp [inflight1]
            have hreq1b : reqCount d s = 1 := by
              simp only [multC, hin0] at hm1
              omega
            have hmult : multC d ({ s with
                requests := rest,
                inflight := some d,
                fetchLog := s.fetchLog ++ [d] }) = multC d s := by
              simp only [multC, hreqc, hin, hin0, hreq1b]
            have hpend : d ∈ s.pending := by
              apply hiff.mpr
              simp only [multC, hin0, hreq1b] at hm1 ⊢
              omega
            refine ⟨?_, ?_, ?_, ?_, ?_⟩
            · simp [List.count_append, hfetch0]
            · simp only [hmult]
              exact hm1
            · simp only [hmult]
              exact hiff
            · intro r hr
              exact hprov r (by rw [hreqs]; exact List.mem_cons_of_mem _ hr)
            · intro _
              refine ⟨hpend, ?_⟩
              rw [hreqc, hreq1b]
          · have hreqc : reqCount c ({ s with
                requests := rest,
                inflight := some d,
                fetchLog := s.fetchLog ++ [d] }) = reqCount c s := by
              simp [reqCount, hreqs, hdc]
            have hin : inflight1 c ({ s with
                requests := rest,
                inflight := some d,
                fetchLog := s.fetchLog ++ [d] }) = 0 := by
              simp only [inflight1]
              rw [if_neg]
              simp only [Option.some.injEq]
              intro h0
              exact hdc h0
            have hcount : (s.fetchLog ++ [d]).count c = s.fetchLog.count c := by
              rw [List.count_append]
              have hcd : ¬ c = d := fun h0 => hdc h0.symm
              have : List.count c [d] = 0 := by
                simp [List.count_singleton, hcd, hdc]
              omega
            have hmult : multC c ({ s with
                requests := rest,
                inflight := some d,
                fetchLog := s.fetchLog ++ [d] }) = multC c s := by
              simp only [multC, hreqc, hin, hin0]
            refine ⟨?_, ?_, ?_, ?_, ?_⟩
            · simp only
              rw [hcount]
              exact hf1
            · simp only [hmult]
              exact hm1
            · simp only [hmult]
              exact hiff
            · intro r hr
              exact hprov r (by rw [hreqs]; exact List.mem_cons_of_mem _ hr)
            · intro h0
              simp only at h0
              rw [hcount] at h0
              rw [hreqc]
              exact hfetch h0

theorem J_done (c : TileCoord) (b : Bool) (s : LoaderState) (h : J c s)
    (hrem : removesC c s (.done b) = false) : J c (workerDone b s) := by
  obtain ⟨hf1, hm1, hiff, hprov, hfetch⟩ := h
  unfold workerDone
  cases hinf : s.inflight with
  | none => exact ⟨hf1, hm1, hiff, hprov, hfetch⟩
  | some d =>
      cases b with
      | true =>
          show J c ({ s with
            inflight := none,
            results := s.results ++ [d] })
          have hin0 : inflight1 c ({ s with
              inflight := none,
              results := s.results ++ [d] }) = 0 := by
            simp [inflight1]
          have hmult : multC c ({ s with
              inflight := none,
              results := s.results ++ [d] }) = multC c s := by
            simp only [multC, reqCount, hin0, inflight1, hinf, List.count_append]
            by_cases hdc : d = c
            · subst hdc
              simp [List.count_singleton]
              omega
            · have hcd : ¬ c = d := fun h0 => hdc h0.symm
              have h1 : List.count c [d] = 0 := by
                simp [List.count_singleton, hcd, hdc]
              rw [h1]
              simp [hdc]
          refine ⟨hf1, by rw [hmult]; exact hm1, by rw [hmult]; exact hiff,
            hprov, ?_⟩
          intro h0
          simp only at h0
          have := hfetch h0
          refine ⟨this.1, ?_⟩
          simpa [reqCount] using this.2
      | false =>
          show J c ({ s with
            inflight := none,
            pending := s.pending.erase d })
          have hdc : d ≠ c := by
            simp only [removesC, hinf] at hrem
            simpa using hrem
          have hne : ¬ (s.inflight = some c) := by
            rw [hinf]
            simp only [Option.some.injEq]
            exact hdc
          have hin0 : inflight1 c s = 0 := by
            unfold inflight1
            rw [if_neg hne]
          have hmult : multC c ({ s with
              inflight := none,
              pending := s.pending.erase d }) = multC c s := by
            simp only [multC, reqCount, inflight1]
            rw [if_neg hne]
            simp
          have hmem : c ∈ s.pending.erase d ↔ c ∈ s.pending := by
            rw [Finset.mem_erase]
            constructor
            · exact fun h0 => h0.2
            · exact fun h0 => ⟨fun h1 => hdc h1.symm, h0⟩
          refine ⟨hf1, by rw [hmult]; exact hm1, ?_, hprov, ?_⟩
          · rw [hmult]
            show c ∈ s.pending.erase d ↔ _
            rw [hmem]
            exact hiff
          · intro h0
            simp only at h0
            have := hfetch h0
            exact ⟨hmem.mpr this.1, by simpa [reqCount] using this.2⟩

theorem J_poll (c : TileCoord) (s : LoaderState) (h : J c s)
    (hrem : removesC c s .poll = false) : J c (poll_result s) := by
  obtain ⟨hf1, hm1, hiff, hprov, hfetch⟩ := h
  unfold poll_result
  cases hres : s.results with
  | nil => exact ⟨hf1, hm1, hiff, hprov, hfetch⟩
  | cons r rest =>
      have hrc : r ≠ c := by
        simp only [removesC, hres] at hrem
        simpa using hrem
      have hcount : s.results.count c = rest.count c := by
        rw [hres]
        have h1 : c ≠ r := fun h0 => hrc h0.symm
        simp [List.count_cons, h1, hrc]
      have hmult : multC c ({ s with
          results := rest,
          pending := s.pending.erase r }) = multC c s := by
        simp only [multC, reqCount, inflight1, hcount]
      have hmem : c ∈ s.pending.erase r ↔ c ∈ s.pending := by
        rw [Finset.mem_erase]
        constructor
        · exact fun h0 => h0.2
        · exact fun h0 => ⟨fun h1 => hrc h1.symm, h0⟩
      refine ⟨hf1, by rw [hmult]; exact hm1, ?_, hprov, ?_⟩
      · rw [hmult]
        show c ∈ s.pending.erase r ↔ _
        rw [hmem]
        exact hiff
      · intro h0
        simp only at h0
        have := hfetch h0
        exact ⟨hmem.mpr this.1, by simpa [reqCount] using this.2⟩

/-- Alphabet check for one operation of the C2 protocol. -/
def protoOp (op : LoaderOp) : Bool :=
  match op with
  | .request _ prov => prov
  | .clear => false
  | _ => true

theorem J_step (c : TileCoord) (op : LoaderOp) (s : LoaderState) (h : J c s)
    (hop : protoOp op = true) (hrem : removesC c s op = false) :
    J c (step op s) := by
  cases op with
  | request c' prov => exact J_request c c' prov s h (by simpa [protoOp] using hop)
  | take => exact J_take c s h
  | done b => exact J_done c b s h hrem
  | poll => exact J_poll c s h hrem
  | clear => exact absurd hop (by simp [protoOp])

theorem J_run (c : TileCoord) (ops : List LoaderOp) (s : LoaderState)
    (h : J c s) (hops : protoOnly ops = true) (hrem : noRemove c s ops = true) :
    J c (run ops s) := by
  induction ops generalizing s with
  | nil => exact h
  | cons op t ih =>
      simp only [protoOnly, List.all_cons, Bool.and_eq_true] at hops
      simp only [noRemove, Bool.and_eq_true, Bool.not_eq_true'] at hrem
      have hstep : J c (step op s) := by
        apply J_step c op s h _ hrem.1
        cases op <;> simp_all [protoOp, protoOnly]
      exact ih _ hstep hops.2 hrem.2

theorem request_pending_mem (c : TileCoord) (p : Bool) (s : LoaderState) :
    c ∈ (request c p s).pending := by
  unfold request
  split
  · next h => exact h
  · exact Finset.mem_insert_self c s.pending

theorem request_of_pending (c : TileCoord) (p : Bool) (s : LoaderState)
    (h : c ∈ s.pending) : request c p s = s := by
  unfold request
  rw [if_pos h]

theorem run_replicate (op : LoaderOp) (n : ℕ) (s : LoaderState) :
    run (List.replicate n op) s = (fun t => step op t)^[n] s := by
  induction n generalizing s with
  | zero => rfl
  | succ m ih =>
      rw [List.replicate_succ, Function.iterate_succ_apply]
      exact ih (step op s)

end Loader

/-- C2: `request` is idempotent while a coordinate is pending — a repeated
request is a no-op, `n` consecutive requests act like one, and along any
trace of the request/worker/poll protocol in which `c`'s successful result
is never drained by `poll_result` and the worker never observes a failed
fetch of `c`, the provider is called at most once for `c` (exactly once as
soon as the worker dequeues it); and the only protocol events that remove
`c` from the pending set are a `poll_result` that drains `c`'s successful
result and a worker-observed failed fetch of `c`. -/
theorem C2_loader_idempotence :
    (∀ (s : Loader.LoaderState) (c : TileCoord) (p : Bool),
        c ∈ s.pending → Loader.step (.request c p) s = s)
    ∧ (∀ (s : Loader.LoaderState) (c : TileCoord) (p : Bool) (n : ℕ), 1 ≤ n →
        (fun t => Loader.step (.request c p) t)^[n] s = Loader.step (.request c p) s)
    ∧ (∀ (ops : List Loader.LoaderOp) (c : TileCoord),
        Loader.protoOnly ops = true → Loader.noRemove c Loader.init ops = true →
        (Loader.run ops Loader.init).fetchLog.count c ≤ 1)
    ∧ (∀ (n : ℕ) (c : TileCoord), 1 ≤ n →
        (Loader.run (List.replicate n (.request c true) ++ [.take])
          Loader.init).fetchLog.count c = 1)
    ∧ (∀ (s : Loader.LoaderState) (c : TileCoord) (op : Loader.LoaderOp),
        (∀ r ∈ s.requests, r.2 = true) → op ≠ Loader.LoaderOp.clear →
        c ∈ s.pending → c ∉ (Loader.step op s).pending →
        Loader.removesC c s op = true) := by
  have hpart1 : ∀ (s : Loader.LoaderState) (c : TileCoord) (p : Bool),
      c ∈ s.pending → Loader.step (.request c p) s = s := by
    intro s c p h
    show Loader.request c p s = s
    exact Loader.request_of_pending c p s h
  have hpart2 : ∀ (s : Loader.LoaderState) (c : TileCoord) (p : Bool) (n : ℕ),
      1 ≤ n → (fun t => Loader.step (.request c p) t)^[n] s
        = Loader.step (.request c p) s := by
    intro s c p n hn
    induction n with
    | zero => omega
    | succ m ih =>
        cases Nat.eq_or_lt_of_le hn with
        | inl h1 =>
            have : m = 0 := by omega
            subst this
            simp
        | inr h1 =>
            have hm : 1 ≤ m := by omega
            rw [Function.iterate_succ_apply', ih hm]
            show Loader.step (.request c p) (Loader.request c p s) = _
            apply hpart1
            exact Loader.request_pending_mem c p s
  refine ⟨hpart1, hpart2, ?_, ?_, ?_⟩
  · intro ops c hproto hrem
    exact (Loader.J_run c ops Loader.init (Loader.J_init c) hproto hrem).1
  · intro n c hn
    rw [Loader.run]
    rw [List.foldl_append]
    have h1 : Loader.run (List.replicate n (.request c true)) Loader.init
        = Loader.step (.request c true) Loader.init := by
      rw [Loader.run_replicate]
      exact hpart2 _ c true n hn
    rw [Loader.run] at h1
    rw [h1]
    show (Loader.workerTake (Loader.request c true Loader.init)).fetchLog.count c = 1
    have h2 : Loader.request c true Loader.init
        = { requests := [(c, true)], pending := {c}, inflight := none,
            results := [], fetchLog := [] } := by
      unfold Loader.request Loader.init
      rw [if_neg (by simp)]
      rfl
    rw [h2]
    unfold Loader.workerTake
    simp
  · intro s c op hprov hop hpend hnotin
    cases op with
    | request c' p =>
        exfalso
        apply hnotin
        show c ∈ (Loader.request c' p s).pending
        unfold Loader.request
        split
        · exact hpend
        · exact Finset.mem_insert_of_mem hpend
    | take =>
        exfalso
        apply hnotin
        show c ∈ (Loader.workerTake s).pending
        unfold Loader.workerTake
        split
        · exact hpend
        · cases hreqs : s.requests with
          | nil => exact hpend
          | cons hd rest =>
              obtain ⟨d, prov⟩ := hd
              have hprovd : prov = true := hprov (d, prov) (by rw [hreqs]; simp)
              subst hprovd
              show c ∈ ({ s with
                requests := rest,
                inflight := some d,
                fetchLog := s.fetchLog ++ [d] }).pending
              exact hpend
    | done b =>
        show Loader.removesC c s (.done b) = true
        unfold Loader.step Loader.workerDone at hnotin
        cases hinf : s.inflight with
        | none =>
            rw [hinf] at hnotin
            exact absurd hpend hnotin
        | some d =>
            rw [hinf] at hnotin
            cases b with
            | true => exact absurd hpend hnotin
            | false =>
                have hcd : c = d := by
                  by_contra h0
                  exact hnotin (Finset.mem_erase.mpr ⟨fun h1 => h0 h1, hpend⟩)
                simp [Loader.removesC, hinf, hcd]
    | poll =>
        show Loader.removesC c s .poll = true
        unfold Loader.step Loader.poll_result at hnotin
        cases hres : s.results with
        | nil =>
            rw [hres] at hnotin
            exact absurd hpend hnotin
        | cons r rest =>
            rw [hres] at hnotin
            have hcr : c = r := by
              by_contra h0
              exact hnotin (Finset.mem_erase.mpr ⟨fun h1 => h0 h1, hpend⟩)
            simp [Loader.removesC, hres, hcr]
    | clear => exact absurd rfl hop

/-- Witness for C2: a concrete request → fetch → success trace never
draining the result fetches the coordinate exactly once. -/
theorem C2_loader_idempotence_witness :
    (Loader.run [Loader.LoaderOp.request ⟨0, 0, 0⟩ true, .take, .done true]
      Loader.init).fetchLog.count ⟨0, 0, 0⟩ ≤ 1 :=
  C2_loader_idempotence.2.2.1
    [Loader.LoaderOp.request ⟨0, 0, 0⟩ true, .take, .done true]
    ⟨0, 0, 0⟩ (by decide) (by decide)

/-- C10: `clear_pending` empties both the request queue and the whole
pending set while leaving the in-flight fetch and the result queue alone;
immediately afterwards `is_pending` is false for every coordinate, a
coordinate whose fetch is still in flight can be requested again at once,
and the trace request→take→clear→request→success→take→success leaves two
results for the same coordinate in the queue, both of which `poll_result`
drains one after the other. -/
theorem C10_clear_pending (s : Loader.LoaderState) (c : TileCoord) (p : Bool) :
    ((Loader.clear_pending s).requests = []
      ∧ (Loader.clear_pending s).pending = ∅
      ∧ (Loader.clear_pending s).inflight = s.inflight
      ∧ (Loader.clear_pending s).results = s.results)
    ∧ (∀ d, Loader.is_pending d (Loader.clear_pending s) = false)
    ∧ (s.inflight = some c →
        (Loader.request c p (Loader.clear_pending s)).requests = [(c, p)]
        ∧ c ∈ (Loader.request c p (Loader.clear_pending s)).pending
        ∧ (Loader.request c p (Loader.clear_pending s)).inflight = some c)
    ∧ ((Loader.run [Loader.LoaderOp.request c true, .take, .clear,
          .request c true, .done true, .take, .done true]
          Loader.init).results = [c, c]
      ∧ (Loader.poll_result (Loader.run [Loader.LoaderOp.request c true, .take,
          .clear, .request c true, .done true, .take, .done true]
          Loader.init)).results = [c]
      ∧ (Loader.poll_result (Loader.poll_result
          (Loader.run [Loader.LoaderOp.request c true, .take, .clear,
            .request c true, .done true, .take, .done true]
            Loader.init))).results = []) := by
  have hrun : Loader.run [Loader.LoaderOp.request c true, .take, .clear,
      .request c true, .done true, .take, .done true] Loader.init
      = ({
          requests := [],
          pending := {c},
          inflight := none,
          results := [c, c],
          fetchLog := [c, c] } : Loader.LoaderState) := by
    show Loader.workerDone true (Loader.workerTake (Loader.workerDone true
      (Loader.request c true (Loader.clear_pending (Loader.workerTake
        (Loader.request c true Loader.init)))))) = _
    have h1 : Loader.request c true Loader.init
        = ({
            requests := [(c, true)],
            pending := {c},
            inflight := none,
            results := [],
            fetchLog := [] } : Loader.LoaderState) := by
      unfold Loader.request Loader.init
      rw [if_neg (by simp)]
      rfl
    rw [h1]
    have h2 : Loader.workerTake ({
          requests := [(c, true)],
          pending := {c},
          inflight := none,
          results := [],
          fetchLog := [] } : Loader.LoaderState)
        = ({
            requests := [],
            pending := {c},
            inflight := some c,
            results := [],
            fetchLog := [c] } : Loader.LoaderState) := by
      unfold Loader.workerTake
      simp
    rw [h2]
    have h3 : Loader.clear_pending ({
          requests := [],
          pending := {c},
          inflight := some c,
          results := [],
          fetchLog := [c] } : Loader.LoaderState)
        = ({
            requests := [],
            pending := ∅,
            inflight := some c,
            results := [],
            fetchLog := [c] } : Loader.LoaderState) := rfl
    rw [h3]
    have h4 : Loader.request c true ({
          requests := [],
          pending := ∅,
          inflight := some c,
          results := [],
          fetchLog := [c] } : Loader.LoaderState)
        = ({
            requests := [(c, true)],
            pending := {c},
            inflight := some c,
            results := [],
            fetchLog := [c] } : Loader.LoaderState) := by
      unfold Loader.request
      rw [if_neg (by simp)]
      rfl
    rw [h4]
    have h5 : Loader.workerDone true ({
          requests := [(c, true)],
          pending := {c},
          inflight := some c,
          results := [],
          fetchLog := [c] } : Loader.LoaderState)
        = ({
            requests := [(c, true)],
            pending := {c},
            inflight := none,
            results := [c],
            fetchLog := [c] } : Loader.LoaderState) := rfl
    rw [h5]
    have h6 : Loader.workerTake ({
          requests := [(c, true)],
          pending := {c},
          inflight := none,
          results := [c],
          fetchLog := [c] } : Loader.LoaderState)
        = ({
            requests := [],
            pending := {c},
            inflight := some c,
            results := [c],
            fetchLog := [c, c] } : Loader.LoaderState) := by
      unfold Loader.workerTake
      simp
    rw [h6]
    rfl
  refine ⟨⟨rfl, rfl, rfl, rfl⟩, ?_, ?_, ?_⟩
  · intro d
    simp [Loader.is_pending, Loader.clear_pending]
  · intro hinf
    have h0 : c ∉ (Loader.clear_pending s).pending := by
      simp [Loader.clear_pending]
    refine ⟨?_, ?_, ?_⟩
    · unfold Loader.request
      rw [if_neg h0]
      rfl
    · exact Loader.request_pending_mem c p _
    · unfold Loader.request
      rw [if_neg h0]
      exact hinf
  · rw [hrun]
    refine ⟨rfl, rfl, rfl⟩

/-- Witness for C10 with an in-flight fetch of the requested coordinate. -/
theorem C10_clear_pending_witness :
    Loader.LoaderState.inflight
      { requests := [], pending := {(⟨0, 0, 0⟩ : TileCoord)},
        inflight := some ⟨0, 0, 0⟩, results := [], fetchLog := [⟨0, 0, 0⟩] }
      = some ⟨0, 0, 0⟩
    ∧ (Loader.request ⟨0, 0, 0⟩ true (Loader.clear_pending
        { requests := [], pending := {(⟨0, 0, 0⟩ : TileCoord)},
          inflight := some ⟨0, 0, 0⟩, results := [],
          fetchLog := [⟨0, 0, 0⟩] })).requests = [(⟨0, 0, 0⟩, true)] :=
  ⟨rfl, ((C10_clear_pending
    { requests := [], pending := {(⟨0, 0, 0⟩ : TileCoord)},
      inflight := some ⟨0, 0, 0⟩, results := [], fetchLog := [⟨0, 0, 0⟩] }
    ⟨0, 0, 0⟩ true).2.2.1 rfl).1⟩

/-! ## Composite elevation assembly (`src/tile/tile_manager.cpp`) -/

namespace Comp

/-- The slice of `TileRenderable` used by the composite assembler. -/
structure ETile where
  coord : TileCoord
  bounds : QBounds
  elev_rows : ℕ
  elev_cols : ℕ
  elevation : List ℚ

/-- `CompositeElevation` from `tile_manager.cpp`. -/
structure CompositeElevation where
  data : List ℚ
  bounds : QBounds
  rows : ℕ
  cols : ℕ
  center_row_start : ℕ
  center_col_start : ℕ
  center_rows : ℕ
  center_cols : ℕ

/-- The neighbour grid `nb[gr][gc]` filled by the 3×3 scan: grid row 0 is
north; for HGT tiles (`z = −1`) `dy = +1` is north, for slippy tiles north
is `dy = −1`.  A neighbour is used only when resident with matching
resolution and non-empty elevation. -/
def nbAt (center : ETile) (cache : TileCoord → Option ETile)
    (gr gc : ℕ) : Option ETile :=
  if gr = 1 ∧ gc = 1 then some center
  else
    let hgt_mode := center.coord.z = -1
    let dy : ℤ := if hgt_mode then 1 - (gr : ℤ) else (gr : ℤ) - 1
    let dx : ℤ := (gc : ℤ) - 1
    match cache ⟨center.coord.z, center.coord.x + dx, center.coord.y + dy⟩ with
    | none => none
    | some n =>
        if n.elev_rows = center.elev_rows ∧ n.elev_cols = center.elev_cols
            ∧ n.elevation ≠ [] then some n
        else none

/-- Expansion row/column counts (`top_rows` … `right_cols`). -/
def topRows (center : ETile) (cache : TileCoord → Option ETile) : ℕ :=
  if (nbAt center cache 0 0).isSome ∨ (nbAt center cache 0 1).isSome
      ∨ (nbAt center cache 0 2).isSome then center.elev_rows else 0

def bottomRows (center : ETile) (cache : TileCoord → Option ETile) : ℕ :=
  if (nbAt center cache 2 0).isSome ∨ (nbAt center cache 2 1).isSome
      ∨ (nbAt center cache 2 2).isSome then center.elev_rows else 0

def leftCols (center : ETile) (cache : TileCoord → Option ETile) : ℕ :=
  if (nbAt center cache 0 0).isSome ∨ (nbAt center cache 1 0).isSome
      ∨ (nbAt center cache 2 0).isSome then center.elev_cols else 0

def rightCols (center : ETile) (cache : TileCoord → Option ETile) : ℕ :=
  if (nbAt center cache 0 2).isSome ∨ (nbAt center cache 1 2).isSome
      ∨ (nbAt center cache 2 2).isSome then center.elev_cols else 0

/-- `memcpy` of one source row into the flat destination at `off`. -/
def writeSlice (dst : List ℚ) (off : ℕ) (src : List ℚ) : List ℚ :=
  dst.take off ++ src ++ dst.drop (off + src.length)

/-- The per-neighbour row-copy loop
(`for r: memcpy(&data[(dst_r+r)*cols+dst_c], &elev[r*cc], cc)`). -/
def blitTile (dst : List ℚ) (dst_r dst_c cols : ℕ) (elev : List ℚ)
    (cr cc : ℕ) : List ℚ :=
  (List.range cr).foldl
    (fun d r => writeSlice d ((dst_r + r) * cols + dst_c)
      ((elev.drop (r * cc)).take cc)) dst

/-- The double loop over the 3×3 neighbour grid performing all blits. -/
def blitAll (center : ETile) (cache : TileCoord → Option ETile)
    (dst : List ℚ) : List ℚ :=
  let cr := center.elev_rows
  let cc := center.elev_cols
  let top_rows := topRows center cache
  let left_cols := leftCols center cache
  let cols := left_cols + cc + rightCols center cache
  (List.range 3).foldl (fun d gr =>
    (List.range 3).foldl (fun d gc =>
      match nbAt center cache gr gc with
      | none => d
      | some n =>
          let dst_r := if gr = 0 then 0 else if gr = 1 then top_rows
            else top_rows + cr
          let dst_c := if gc = 0 then 0 else if gc = 1 then left_cols
            else left_cols + cc
          blitTile d dst_r dst_c cols n.elevation cr cc) d) dst

/-- `build_composite_elevation`: size the composite by the resident
neighbour directions, blit every resident neighbour, and expand the
geographic bounds one tile-span in each expanded direction. -/
def build_composite_elevation (center : ETile)
    (cache : TileCoord → Option ETile) : CompositeElevation :=
  let cr := center.elev_rows
  let cc := center.elev_cols
  let top_rows := topRows center cache
  let bottom_rows := bottomRows center cache
  let left_cols := leftCols center cache
  let right_cols := rightCols center cache
  let rows := top_rows + cr + bottom_rows
  let cols := left_cols + cc + right_cols
  let lat_span := center.bounds.max_lat - center.bounds.min_lat
  let lon_span := center.bounds.max_lon - center.bounds.min_lon
  { data := blitAll center cache (List.replicate (rows * cols) 0)
    bounds :=
      { max_lat := center.bounds.max_lat + (if 0 < top_rows then lat_span else 0)
        min_lat := center.bounds.min_lat - (if 0 < bottom_rows then lat_span else 0)
        min_lon := center.bounds.min_lon - (if 0 < left_cols then lon_span else 0)
        max_lon := center.bounds.max_lon + (if 0 < right_cols then lon_span else 0) }
    rows := rows
    cols := cols
    center_row_start := top_rows
    center_col_start := left_cols
    center_rows := cr
    center_cols := cc }

/-- `extract_center_results`: copy the center sub-rectangle of a
composite-shaped array into a tile-shaped one.  The source's double loop
writes `out[r*cc+c] = comp[(row_start+r)*cols + col_start + c]`; the flat
index `i = r*cc+c` is recovered as `(i / cc, i % cc)`. -/
def extract_center (ce : CompositeElevation) (comp : List ℚ) : List ℚ :=
  (List.range (ce.center_rows * ce.center_cols)).map (fun i =>
    comp.getD ((ce.center_row_start + i / ce.center_cols) * ce.cols
      + ce.center_col_start + i % ce.center_cols) 0)

/-- `extract_center_results` extracts both overlay planes the same way; the
visibility plane is modelled with the same rational payload type. -/
def extract_center_results (ce : CompositeElevation)
    (comp_vis comp_sig : List ℚ) : List ℚ × List ℚ :=
  (extract_center ce comp_vis, extract_center ce comp_sig)

theorem blit_aux (src : List ℚ) (cc : ℕ) :
    ∀ (n j : ℕ) (dst : List ℚ), src.length = (j + n) * cc →
      dst.length = src.length →
      (List.range' j n).foldl
        (fun d r => writeSlice d (r * cc) ((src.drop (r * cc)).take cc))
        (src.take (j * cc) ++ dst.drop (j * cc)) = src := by
  intro n
  induction n with
  | zero =>
      intro j dst hsrc hdst
      have h1 : src.take (j * cc) = src := by
        apply List.take_of_length_le
        rw [hsrc]
        norm_num
      have h2 : dst.drop (j * cc) = [] := by
        apply List.drop_eq_nil_of_le
        rw [hdst, hsrc]
        norm_num
      simp [h1, h2]
  | succ m ih =>
      intro j dst hsrc hdst
      rw [List.range'_succ, List.foldl_cons]
      have hjcc : (j + 1) * cc ≤ src.length := by
        rw [hsrc]
        exact Nat.mul_le_mul_right cc (by omega)
      have htl : (src.take (j * cc)).length = j * cc := by
        rw [List.length_take]
        have : j * cc ≤ src.length := le_trans (Nat.mul_le_mul_right cc (by omega)) hjcc
        omega
      have hsl : ((src.drop (j * cc)).take cc).length = cc := by
        rw [List.length_take, List.length_drop]
        have : j * cc + cc ≤ src.length := by
          rw [hsrc]
          calc j * cc + cc = (j + 1) * cc := by ring
            _ ≤ (j + (m + 1)) * cc := Nat.mul_le_mul_right cc (by omega)
        omega
      have hstep : writeSlice (src.take (j * cc) ++ dst.drop (j * cc)) (j * cc)
          ((src.drop (j * cc)).take cc)
          = src.take ((j + 1) * cc) ++ dst.drop ((j + 1) * cc) := by
        unfold writeSlice
        have e1 : (src.take (j * cc) ++ dst.drop (j * cc)).take (j * cc)
            = src.take (j * cc) := by
          rw [List.take_append_of_le_length (by omega), List.take_take]
          congr 1
          omega
        have e2 : (src.take (j * cc) ++ dst.drop (j * cc)).drop
            (j * cc + ((src.drop (j * cc)).take cc).length)
            = dst.drop ((j + 1) * cc) := by
          rw [hsl]
          have : j * cc + cc = (src.take (j * cc)).length + cc := by omega
          rw [this, List.drop_append, List.drop_drop]
          congr 1
          ring
        rw [e1, e2]
        have e3 : src.take (j * cc) ++ (src.drop (j * cc)).take cc
            = src.take ((j + 1) * cc) := by
          have : (j + 1) * cc = j * cc + cc := by ring
          rw [this, List.take_add]
        rw [e3]
      rw [hstep]
      exact ih (j + 1) dst (by rw [hsrc]; ring) hdst

theorem blitTile_center (src dst : List ℚ) (cr cc : ℕ)
    (hsrc : src.length = cr * cc) (hdst : dst.length = cr * cc) :
    blitTile dst 0 0 cc src cr cc = src := by
  unfold blitTile
  simp only [Nat.zero_add, Nat.add_zero]
  have h0 := blit_aux src cc cr 0 dst (by rw [hsrc]; norm_num)
    (by rw [hdst, hsrc])
  simp only [Nat.zero_mul, List.take_zero, List.drop_zero, List.nil_append] at h0
  rw [List.range_eq_range']
  exact h0

end Comp

/-- C5: with no resident neighbours, the composite equals the center tile
(same data, dimensions and bounds) and the recorded center sub-rectangle
spans the whole composite; `extract_center` copies exactly the center
sub-rectangle of any composite-shaped array into the tile-shaped output,
so a uniform composite extracts to the same uniform value everywhere. -/
theorem C5_composite_roundtrip (center : Comp.ETile)
    (cache : TileCoord → Option Comp.ETile)
    (hno : ∀ dy dx : ℤ, -1 ≤ dy → dy ≤ 1 → -1 ≤ dx → dx ≤ 1 →
      ¬(dy = 0 ∧ dx = 0) →
      cache ⟨center.coord.z, center.coord.x + dx, center.coord.y + dy⟩ = none)
    (hlen : center.elevation.length = center.elev_rows * center.elev_cols)
    (comp_vis : List ℚ) (v : ℚ) :
    ((Comp.build_composite_elevation center cache).data = center.elevation
      ∧ (Comp.build_composite_elevation center cache).rows = center.elev_rows
      ∧ (Comp.build_composite_elevation center cache).cols = center.elev_cols
      ∧ (Comp.build_composite_elevation center cache).bounds = center.bounds
      ∧ (Comp.build_composite_elevation center cache).center_row_start = 0
      ∧ (Comp.build_composite_elevation center cache).center_col_start = 0
      ∧ (Comp.build_composite_elevation center cache).center_rows
          = center.elev_rows
      ∧ (Comp.build_composite_elevation center cache).center_cols
          = center.elev_cols)
    ∧ (∀ (ce : Comp.CompositeElevation) (r c : ℕ),
        r < ce.center_rows → c < ce.center_cols →
        (Comp.extract_center ce comp_vis).getD (r * ce.center_cols + c) 0
          = comp_vis.getD ((ce.center_row_start + r) * ce.cols
              + ce.center_col_start + c) 0)
    ∧ (∀ ce : Comp.CompositeElevation,
        (Comp.extract_center ce comp_vis).length
          = ce.center_rows * ce.center_cols)
    ∧ (∀ ce : Comp.CompositeElevation,
        ce.center_row_start + ce.center_rows ≤ ce.rows →
        ce.center_col_start + ce.center_cols ≤ ce.cols →
        Comp.extract_center ce (List.replicate (ce.rows * ce.cols) v)
          = List.replicate (ce.center_rows * ce.center_cols) v) := by
  have hnb : ∀ gr gc : ℕ, gr < 3 → gc < 3 → ¬(gr = 1 ∧ gc = 1) →
      Comp.nbAt center cache gr gc = none := by
    intro gr gc hgr hgc hne
    unfold Comp.nbAt
    rw [if_neg hne]
    dsimp only
    by_cases hz : center.coord.z = -1
    · rw [if_pos hz]
      rw [hno (1 - (gr : ℤ)) ((gc : ℤ) - 1) (by omega) (by omega) (by omega)
        (by omega) (by intro h0; exact hne ⟨by omega, by omega⟩)]
    · rw [if_neg hz]
      rw [hno ((gr : ℤ) - 1) ((gc : ℤ) - 1) (by omega) (by omega) (by omega)
        (by omega) (by intro h0; exact hne ⟨by omega, by omega⟩)]
  have hnb11 : Comp.nbAt center cache 1 1 = some center := by
    unfold Comp.nbAt
    rw [if_pos ⟨rfl, rfl⟩]
  have htop : Comp.topRows center cache = 0 := by
    unfold Comp.topRows
    rw [hnb 0 0 (by omega) (by omega) (by omega),
      hnb 0 1 (by omega) (by omega) (by omega),
      hnb 0 2 (by omega) (by omega) (by omega)]
    simp
  have hbot : Comp.bottomRows center cache = 0 := by
    unfold Comp.bottomRows
    rw [hnb 2 0 (by omega) (by omega) (by omega),
      hnb 2 1 (by omega) (by omega) (by omega),
      hnb 2 2 (by omega) (by omega) (by omega)]
    simp
  have hleft : Comp.leftCols center cache = 0 := by
    unfold Comp.leftCols
    rw [hnb 0 0 (by omega) (by omega) (by omega),
      hnb 1 0 (by omega) (by omega) (by omega),
      hnb 2 0 (by omega) (by omega) (by omega)]
    simp
  have hright : Comp.rightCols center cache = 0 := by
    unfold Comp.rightCols
    rw [hnb 0 2 (by omega) (by omega) (by omega),
      hnb 1 2 (by omega) (by omega) (by omega),
      hnb 2 2 (by omega) (by omega) (by omega)]
    simp
  have hdata : Comp.blitAll center cache
      (List.replicate ((Comp.topRows center cache + center.elev_rows
          + Comp.bottomRows center cache)
        * (Comp.leftCols center cache + center.elev_cols
          + Comp.rightCols center cache)) 0) = center.elevation := by
    unfold Comp.blitAll
    dsimp only
    rw [show List.range 3 = [0, 1, 2] from rfl]
    simp only [List.foldl_cons, List.foldl_nil]
    rw [hnb 0 0 (by omega) (by omega) (by omega),
      hnb 0 1 (by omega) (by omega) (by omega),
      hnb 0 2 (by omega) (by omega) (by omega),
      hnb 1 0 (by omega) (by omega) (by omega), hnb11,
      hnb 1 2 (by omega) (by omega) (by omega),
      hnb 2 0 (by omega) (by omega) (by omega),
      hnb 2 1 (by omega) (by omega) (by omega),
      hnb 2 2 (by omega) (by omega) (by omega)]
    dsimp only
    rw [htop, hbot, hleft, hright]
    norm_num
    apply Comp.blitTile_center
    · exact hlen
    · rw [List.length_replicate]
  refine ⟨⟨?_, ?_, ?_, ?_, ?_, ?_, ?_, ?_⟩, ?_, ?_, ?_⟩
  · show Comp.blitAll center cache (List.replicate
      ((Comp.topRows center cache + center.elev_rows
          + Comp.bottomRows center cache)
        * (Comp.leftCols center cache + center.elev_cols
          + Comp.rightCols center cache)) 0) = center.elevation
    exact hdata
  · show Comp.topRows center cache + center.elev_rows
        + Comp.bottomRows center cache = center.elev_rows
    rw [htop, hbot]
    omega
  · show Comp.leftCols center cache + center.elev_cols
        + Comp.rightCols center cache = center.elev_cols
    rw [hleft, hright]
    omega
  · unfold Comp.build_composite_elevation
    dsimp only
    rw [htop, hbot, hleft, hright]
    simp
  · show Comp.topRows center cache = 0
    exact htop
  · show Comp.leftCols center cache = 0
    exact hleft
  · rfl
  · rfl
  · intro ce r c hr hc
    have hcc : 0 < ce.center_cols := by omega
    unfold Comp.extract_center
    have hi : r * ce.center_cols + c < ce.center_rows * ce.center_cols := by
      calc r * ce.center_cols + c < r * ce.center_cols + ce.center_cols := by omega
        _ = (r + 1) * ce.center_cols := by ring
        _ ≤ ce.center_rows * ce.center_cols :=
            Nat.mul_le_mul_right _ (by omega)
    rw [List.getD_eq_getElem _ _ (by simpa using hi)]
    simp only [List.getElem_map, List.getElem_range]
    have hdiv : (r * ce.center_cols + c) / ce.center_cols = r := by
      rw [Nat.add_comm, Nat.add_mul_div_right _ _ hcc, Nat.div_eq_of_lt hc]
      omega
    have hmod : (r * ce.center_cols + c) % ce.center_cols = c := by
      rw [Nat.add_comm, Nat.add_mul_mod_self_right, Nat.mod_eq_of_lt hc]
    rw [hdiv, hmod]
  · intro ce
    unfold Comp.extract_center
    simp
  · intro ce h1 h2
    unfold Comp.extract_center
    refine List.eq_replicate_iff.mpr ⟨by simp, ?_⟩
    intro b hb
    obtain ⟨i, hi, rfl⟩ := List.mem_map.mp hb
    rw [List.mem_range] at hi
    have hcc : 0 < ce.center_cols := by
      by_contra h0
      push_neg at h0
      interval_cases hc : ce.center_cols
      simp at hi
    have hdivlt : i / ce.center_cols < ce.center_rows := by
      apply Nat.div_lt_of_lt_mul
      rw [Nat.mul_comm]
      exact hi
    have hmodlt : i % ce.center_cols < ce.center_cols := Nat.mod_lt _ hcc
    have hidx : (ce.center_row_start + i / ce.center_cols) * ce.cols
        + ce.center_col_start + i % ce.center_cols < ce.rows * ce.cols := by
      have hA : ce.center_row_start + i / ce.center_cols + 1 ≤ ce.rows := by
        omega
      calc (ce.center_row_start + i / ce.center_cols) * ce.cols
            + ce.center_col_start + i % ce.center_cols
          < (ce.center_row_start + i / ce.center_cols) * ce.cols + ce.cols := by
            omega
        _ = (ce.center_row_start + i / ce.center_cols + 1) * ce.cols := by ring
        _ ≤ ce.rows * ce.cols := Nat.mul_le_mul_right _ hA
    rw [List.getD_eq_getElem _ _ (by simpa using hidx)]
    exact List.getElem_replicate _ _

/-- Witness for C5: a concrete 1×1 tile with an empty cache round-trips,
and a uniform 2×2 composite with a 1×1 center extracts uniformly. -/
theorem C5_composite_roundtrip_witness :
    (Comp.build_composite_elevation
        ⟨⟨-1, 0, 0⟩, ⟨0, 1, 0, 1⟩, 1, 1, [5]⟩ (fun _ => none)).data = [5] :=
  (C5_composite_roundtrip ⟨⟨-1, 0, 0⟩, ⟨0, 1, 0, 1⟩, 1, 1, [5]⟩ (fun _ => none)
    (fun _ _ _ _ _ _ _ => rfl) (by decide) [] 0).1.1

/-! ## GPU propagation engine (`src/analysis/gpu_viewshed.cpp`) -/

namespace Gpu

/-- The node fields consumed by the per-node precomputation. -/
structure NodeInfo where
  lat : ℚ
  lon : ℚ
  antenna_height_m : ℚ
deriving DecidableEq

/-- `static_cast<int>` on a double: truncation toward zero. -/
def ratTrunc (q : ℚ) : ℤ :=
  if q < 0 then ⌈q⌉ else ⌊q⌋

/-- `std::clamp(v, lo, hi)`. -/
def cClamp (v lo hi : ℤ) : ℤ :=
  if v < lo then lo else if hi < v then hi else v

/-- `int nr = static_cast<int>((m_bounds.max_lat - nd.info.lat) / lat_res)`
with `lat_res = (max_lat - min_lat) / (rows - 1)`. -/
def nodeRow (b : QBounds) (rows : ℕ) (nd : NodeInfo) : ℤ :=
  ratTrunc ((b.max_lat - nd.lat) / ((b.max_lat - b.min_lat) / ((rows : ℚ) - 1)))

/-- `int nc = static_cast<int>((nd.info.lon - m_bounds.min_lon) / lon_res)`. -/
def nodeCol (b : QBounds) (cols : ℕ) (nd : NodeInfo) : ℤ :=
  ratTrunc ((nd.lon - b.min_lon) / ((b.max_lon - b.min_lon) / ((cols : ℚ) - 1)))

/-- `nr_elev = std::clamp(nr, 0, m_rows - 1)`. -/
def clampedRow (b : QBounds) (rows : ℕ) (nd : NodeInfo) : ℤ :=
  cClamp (nodeRow b rows nd) 0 ((rows : ℤ) - 1)

/-- `nc_elev = std::clamp(nc, 0, m_cols - 1)`. -/
def clampedCol (b : QBounds) (cols : ℕ) (nd : NodeInfo) : ℤ :=
  cClamp (nodeCol b cols nd) 0 ((cols : ℤ) - 1)

/-- The flat elevation index `nr_elev * m_cols + nc_elev` used for the
CPU-side lookup (async path) and, as the pixel `(nc_elev, nr_elev)`, for
the single-pixel framebuffer readback (blocking path). -/
def elevIndex (b : QBounds) (rows cols : ℕ) (nd : NodeInfo) : ℤ :=
  clampedRow b rows nd * (cols : ℤ) + clampedCol b cols nd

/-- One precomputed `ChunkNode`: the unclamped cell passed to
`set_node_uniforms` plus the observer height
`node_elev + (antenna_height < 1 ? 2 : antenna_height)`. -/
structure ChunkNode where
  data : NodeInfo
  col : ℤ
  row : ℤ
  observer_height : ℚ
deriving DecidableEq

/-- The per-node computation shared verbatim by `compute_all` (which reads
the elevation texel back through a framebuffer, i.e. the uploaded grid) and
`compute_all_async` (which reads the same grid from `cpu_elevation`). -/
def precomputeNode (b : QBounds) (rows cols : ℕ) (elev : List ℚ)
    (nd : NodeInfo) : ChunkNode :=
  let node_elev : ℚ := elev.getD (elevIndex b rows cols nd).toNat 0
  let antenna_h : ℚ :=
    if nd.antenna_height_m < 1 then 2 else nd.antenna_height_m
  { data := nd
    col := nodeCol b cols nd
    row := nodeRow b rows nd
    observer_height := node_elev + antenna_h }

/-- The observer-height formula as the specification words it:
`elev + max(antenna_height, 2)`. -/
def observer_height_spec (elev antenna : ℚ) : ℚ :=
  elev + max antenna 2

/-- The sequence of `(uNodeCell.x, uNodeCell.y, uObserverHeight)` per-node
uniform triples issued by the blocking `compute_all` loop (empty when the
`m_rows == 0 || m_cols == 0` guard trips). -/
def compute_all_uniforms (b : QBounds) (rows cols : ℕ) (elev : List ℚ)
    (nodes : List NodeInfo) : List (ℤ × ℤ × ℚ) :=
  if rows = 0 ∨ cols = 0 then []
  else nodes.map (fun nd =>
    ((precomputeNode b rows cols elev nd).col,
     (precomputeNode b rows cols elev nd).row,
     (precomputeNode b rows cols elev nd).observer_height))

/-- `enum class ComputeState`. -/
inductive ComputeState where
  | IDLE
  | DISPATCHED
  | READY
deriving DecidableEq

/-- A GPU dispatch recorded by the model: one viewshed row-band
(`[row_start, row_stop)`) or one merge pass. -/
inductive DispatchEv where
  | band (row_start row_stop : ℕ)
  | merge
deriving DecidableEq

/-- `static constexpr int ROWS_PER_CHUNK = 128`. -/
def ROWS_PER_CHUNK : ℕ := 128

/-- `glClientWaitSync(m_fence, 0, 0)` — the fence test in `poll_state`
always uses a zero-nanosecond timeout. -/
def POLL_FENCE_TIMEOUT_NS : ℕ := 0

/-- The async engine state: grid size, `m_state`, `m_chunk` and a log of
the dispatches issued so far. -/
structure AsyncEngine where
  rows : ℕ
  cols : ℕ
  state : ComputeState
  nodes : List ChunkNode
  current_node : ℕ
  current_row : ℕ
  merge_pending : Bool
  log : List DispatchEv
deriving DecidableEq

/-- `dispatch_viewshed_band`: dispatch rows
`[current_row, min(current_row + 128, rows))`. -/
def dispatch_viewshed_band (e : AsyncEngine) : AsyncEngine :=
  { e with log := e.log
      ++ [.band e.current_row (min (e.current_row + ROWS_PER_CHUNK) e.rows)] }

/-- `advance_chunk`, called when the fence is signalled. -/
def advance_chunk (e : AsyncEngine) : AsyncEngine :=
  if e.merge_pending then
    let e1 := { e with
      merge_pending := false,
      current_node := e.current_node + 1,
      current_row := 0 }
    if e1.nodes.length ≤ e1.current_node then
      { e1 with nodes := [], state := .READY }
    else
      dispatch_viewshed_band e1
  else
    let e1 := { e with current_row := e.current_row + ROWS_PER_CHUNK }
    if e1.current_row < e1.rows then
      dispatch_viewshed_band e1
    else
      { e1 with merge_pending := true, log := e1.log ++ [.merge] }

/-- `poll_state`: a no-op unless the state is `DISPATCHED` and the
zero-timeout fence test succeeded; then the chunk machine advances (or,
in the non-chunked path, the state becomes `READY`). -/
def poll_state (signaled : Bool) (e : AsyncEngine) : AsyncEngine × ComputeState :=
  if e.state ≠ .DISPATCHED then (e, e.state)
  else if ¬ signaled then (e, e.state)
  else if e.nodes ≠ [] then
    let e1 := advance_chunk e
    (e1, e1.state)
  else
    ({ e with state := .READY }, .READY)

/-- `compute_all_async`: guard, per-node precomputation, then the first
row-band dispatch and `m_state = DISPATCHED`. -/
def compute_all_async (b : QBounds) (rows cols : ℕ) (elev : List ℚ)
    (nodes : List NodeInfo) : AsyncEngine :=
  if rows = 0 ∨ cols = 0 then
    { rows := rows, cols := cols, state := .IDLE, nodes := [],
      current_node := 0, current_row := 0, merge_pending := false, log := [] }
  else
    let chunkNodes := nodes.map (precomputeNode b rows cols elev)
    if chunkNodes = [] then
      { rows := rows, cols := cols, state := .IDLE, nodes := [],
        current_node := 0, current_row := 0, merge_pending := false, log := [] }
    else
      dispatch_viewshed_band
        { rows := rows, cols := cols, state := .DISPATCHED, nodes := chunkNodes,
          current_node := 0, current_row := 0, merge_pending := false, log := [] }

/-- Iterated successful polls. -/
def pollN (k : ℕ) (e : AsyncEngine) : AsyncEngine :=
  (fun t => (poll_state true t).1)^[k] e

/-- Number of row-bands per node: `ceil(rows / 128)`. -/
def numBands (rows : ℕ) : ℕ := (rows + ROWS_PER_CHUNK - 1) / ROWS_PER_CHUNK

/-- The dispatch pattern of one node: bands `0, 128, 256, …` then a merge. -/
def nodeLog (rows : ℕ) : List DispatchEv :=
  (List.range (numBands rows)).map (fun j =>
    .band (ROWS_PER_CHUNK * j) (min (ROWS_PER_CHUNK * j + ROWS_PER_CHUNK) rows))
  ++ [.merge]

/-- The dispatch pattern of a whole run of `n` nodes. -/
def fullLog (n rows : ℕ) : List DispatchEv :=
  (List.replicate n (nodeLog rows)).flatten

theorem cClamp_bounds (v lo hi : ℤ) (h : lo ≤ hi) :
    lo ≤ cClamp v lo hi ∧ cClamp v lo hi ≤ hi := by
  unfold cClamp
  rcases lt_or_le v lo with h1 | h1
  · rw [if_pos h1]
    exact ⟨le_rfl, h⟩
  · rw [if_neg (not_lt.mpr h1)]
    rcases lt_or_le hi v with h2 | h2
    · rw [if_pos h2]
      exact ⟨h, le_rfl⟩
    · rw [if_neg (not_lt.mpr h2)]
      exact ⟨h1, h2⟩

end Gpu

/-- **C1** (counterexample). With bounds `[0,1]×[0,1]`, a 2×2 all-zero
grid and a node of antenna height `3/2`, the engine's observer height is
`3/2` (the `antenna_h < 1.0f` raise does not fire), whereas the spec's
formula `elev + max(antenna, 2)` gives `2`: antenna heights in `[1, 2)`
are NOT raised to 2 meters. -/
theorem C1_observer_height_counterexample :
    (Gpu.precomputeNode ⟨0, 1, 0, 1⟩ 2 2 [0, 0, 0, 0]
        ⟨1/2, 1/2, 3/2⟩).observer_height = 3/2
    ∧ Gpu.observer_height_spec 0 (3/2) = 2
    ∧ (Gpu.precomputeNode ⟨0, 1, 0, 1⟩ 2 2 [0, 0, 0, 0]
        ⟨1/2, 1/2, 3/2⟩).observer_height
      ≠ Gpu.observer_height_spec
          (([0, 0, 0, 0] : List ℚ).getD
            (Gpu.elevIndex ⟨0, 1, 0, 1⟩ 2 2 ⟨1/2, 1/2, 3/2⟩).toNat 0)
          (3/2 : ℚ) := by
  have hidx : Gpu.elevIndex ⟨0, 1, 0, 1⟩ 2 2 ⟨1/2, 1/2, 3/2⟩ = 0 := by
    unfold Gpu.elevIndex Gpu.clampedRow Gpu.clampedCol Gpu.nodeRow Gpu.nodeCol
      Gpu.ratTrunc Gpu.cClamp
    norm_num
  have hnode : (Gpu.precomputeNode ⟨0, 1, 0, 1⟩ 2 2 [0, 0, 0, 0]
      ⟨1/2, 1/2, 3/2⟩).observer_height = 3/2 := by
    show ([0, 0, 0, 0] : List ℚ).getD
        (Gpu.elevIndex ⟨0, 1, 0, 1⟩ 2 2 ⟨1/2, 1/2, 3/2⟩).toNat 0
        + (if (3/2 : ℚ) < 1 then 2 else (3/2 : ℚ)) = 3/2
    rw [hidx, if_neg (by norm_num)]
    norm_num
  have hspec : Gpu.observer_height_spec 0 (3/2) = 2 := by
    unfold Gpu.observer_height_spec
    rw [max_eq_right (by norm_num : (3/2 : ℚ) ≤ 2)]
    norm_num
  refine ⟨hnode, hspec, ?_⟩
  rw [hnode, hidx]
  show (3/2 : ℚ) ≠ Gpu.observer_height_spec (([0, 0, 0, 0] : List ℚ).getD
    (Int.toNat 0) 0) (3/2 : ℚ)
  have h0 : (([0, 0, 0, 0] : List ℚ).getD (Int.toNat 0) 0) = 0 := rfl
  rw [h0, hspec]
  norm_num

/-- **C1** (amended). For every node processed by `compute_all` or
`compute_all_async`, the observer height equals the clamped-cell elevation
plus the antenna height, except that an antenna height strictly below 1
meter is replaced by 2 meters; in particular the spec's `elev +
max(antenna, 2)` formula agrees only when `antenna ≥ 2` (or `antenna < 1`),
and both entry points process every node through this same formula. -/
theorem C1_observer_height (b : Mesh3d.QBounds) (rows cols : ℕ) (elev : List ℚ)
    (nodes : List Gpu.NodeInfo) (hr : rows ≠ 0) (hc : cols ≠ 0) :
    (∀ nd : Gpu.NodeInfo,
        (Gpu.precomputeNode b rows cols elev nd).observer_height
          = elev.getD (Gpu.elevIndex b rows cols nd).toNat 0
            + (if nd.antenna_height_m < 1 then 2 else nd.antenna_height_m))
    ∧ (∀ nd : Gpu.NodeInfo, nd.antenna_height_m < 1 →
        (Gpu.precomputeNode b rows cols elev nd).observer_height
          = elev.getD (Gpu.elevIndex b rows cols nd).toNat 0 + 2)
    ∧ (∀ nd : Gpu.NodeInfo, 1 ≤ nd.antenna_height_m →
        (Gpu.precomputeNode b rows cols elev nd).observer_height
          = elev.getD (Gpu.elevIndex b rows cols nd).toNat 0
            + nd.antenna_height_m)
    ∧ (∀ nd : Gpu.NodeInfo, 2 ≤ nd.antenna_height_m →
        (Gpu.precomputeNode b rows cols elev nd).observer_height
          = Gpu.observer_height_spec
              (elev.getD (Gpu.elevIndex b rows cols nd).toNat 0)
              nd.antenna_height_m)
    ∧ Gpu.compute_all_uniforms b rows cols elev nodes
        = nodes.map (fun nd =>
            ((Gpu.precomputeNode b rows cols elev nd).col,
             (Gpu.precomputeNode b rows cols elev nd).row,
             (Gpu.precomputeNode b rows cols elev nd).observer_height))
    ∧ (nodes ≠ [] → (Gpu.compute_all_async b rows cols elev nodes).nodes
        = nodes.map (Gpu.precomputeNode b rows cols elev)) := by
  have hguard : ¬ (rows = 0 ∨ cols = 0) := by
    rintro (h | h) <;> [exact hr h; exact hc h]
  refine ⟨fun nd => rfl, ?_, ?_, ?_, ?_, ?_⟩
  · intro nd hlt
    show elev.getD _ 0 + (if nd.antenna_height_m < 1 then 2
        else nd.antenna_height_m) = _
    rw [if_pos hlt]
  · intro nd hge
    show elev.getD _ 0 + (if nd.antenna_height_m < 1 then 2
        else nd.antenna_height_m) = _
    rw [if_neg (not_lt.mpr hge)]
  · intro nd hge
    show elev.getD _ 0 + (if nd.antenna_height_m < 1 then 2
        else nd.antenna_height_m) = _
    rw [if_neg (not_lt.mpr (le_trans (by norm_num) hge))]
    unfold Gpu.observer_height_spec
    rw [max_eq_left hge]
  · unfold Gpu.compute_all_uniforms
    rw [if_neg hguard]
  · intro hne
    unfold Gpu.compute_all_async
    rw [if_neg hguard, if_neg (by simpa using hne)]
    rfl

/-- **C1** witness: a node with antenna height `1/2 < 1` gets observer
height `elev + 2`. -/
theorem C1_observer_height_witness :
    (Gpu.precomputeNode ⟨0, 1, 0, 1⟩ 2 2 [0, 0, 0, 0]
        ⟨1/2, 1/2, 1/2⟩).observer_height
      = ([0, 0, 0, 0] : List ℚ).getD
          (Gpu.elevIndex ⟨0, 1, 0, 1⟩ 2 2 ⟨1/2, 1/2, 1/2⟩).toNat 0 + 2 :=
  (C1_observer_height ⟨0, 1, 0, 1⟩ 2 2 [0, 0, 0, 0] []
      (by decide) (by decide)).2.1 ⟨1/2, 1/2, 1/2⟩ (by norm_num)

/-- **C9**: the per-node elevation cell is clamped into
`[0, rows-1] × [0, cols-1]`, so the flat index is in `[0, rows*cols)` and
the `cpu_elevation` read (and the framebuffer pixel) are in bounds for
every node, however far outside the bounds its lat/lon lies; the uniforms
keep the unclamped cell, and no node is skipped by either entry point. -/
theorem C9_clamped_lookup (b : Mesh3d.QBounds) (rows cols : ℕ) (elev : List ℚ)
    (nodes : List Gpu.NodeInfo) (hr : 1 ≤ rows) (hc : 1 ≤ cols) :
    (∀ nd : Gpu.NodeInfo,
        0 ≤ Gpu.clampedRow b rows nd
        ∧ Gpu.clampedRow b rows nd ≤ (rows : ℤ) - 1
        ∧ 0 ≤ Gpu.clampedCol b cols nd
        ∧ Gpu.clampedCol b cols nd ≤ (cols : ℤ) - 1
        ∧ 0 ≤ Gpu.elevIndex b rows cols nd
        ∧ Gpu.elevIndex b rows cols nd < (rows : ℤ) * (cols : ℤ))
    ∧ (elev.length = rows * cols → ∀ nd : Gpu.NodeInfo,
        (Gpu.elevIndex b rows cols nd).toNat < elev.length)
    ∧ (∀ nd : Gpu.NodeInfo,
        (Gpu.precomputeNode b rows cols elev nd).col = Gpu.nodeCol b cols nd
        ∧ (Gpu.precomputeNode b rows cols elev nd).row = Gpu.nodeRow b rows nd)
    ∧ (Gpu.compute_all_uniforms b rows cols elev nodes).length = nodes.length
    ∧ (Gpu.compute_all_async b rows cols elev nodes).nodes.length
        = nodes.length := by
  have hrz : (1 : ℤ) ≤ (rows : ℤ) := by exact_mod_cast hr
  have hcz : (1 : ℤ) ≤ (cols : ℤ) := by exact_mod_cast hc
  have hguard : ¬ (rows = 0 ∨ cols = 0) := by omega
  have key : ∀ nd : Gpu.NodeInfo,
      0 ≤ Gpu.clampedRow b rows nd
      ∧ Gpu.clampedRow b rows nd ≤ (rows : ℤ) - 1
      ∧ 0 ≤ Gpu.clampedCol b cols nd
      ∧ Gpu.clampedCol b cols nd ≤ (cols : ℤ) - 1
      ∧ 0 ≤ Gpu.elevIndex b rows cols nd
      ∧ Gpu.elevIndex b rows cols nd < (rows : ℤ) * (cols : ℤ) := by
    intro nd
    have hrb : 0 ≤ Gpu.clampedRow b rows nd
        ∧ Gpu.clampedRow b rows nd ≤ (rows : ℤ) - 1 :=
      Gpu.cClamp_bounds (Gpu.nodeRow b rows nd) 0 ((rows : ℤ) - 1) (by omega)
    have hcb : 0 ≤ Gpu.clampedCol b cols nd
        ∧ Gpu.clampedCol b cols nd ≤ (cols : ℤ) - 1 :=
      Gpu.cClamp_bounds (Gpu.nodeCol b cols nd) 0 ((cols : ℤ) - 1) (by omega)
    refine ⟨hrb.1, hrb.2, hcb.1, hcb.2, ?_, ?_⟩
    · exact add_nonneg (mul_nonneg hrb.1 (by omega)) hcb.1
    · have hmul : Gpu.clampedRow b rows nd * (cols : ℤ)
          ≤ ((rows : ℤ) - 1) * (cols : ℤ) :=
        mul_le_mul_of_nonneg_right hrb.2 (by omega)
      have hexp : ((rows : ℤ) - 1) * (cols : ℤ)
          = (rows : ℤ) * (cols : ℤ) - (cols : ℤ) := by
        ring
      unfold Gpu.elevIndex
      linarith [hmul, hcb.2, hexp, hcz]
  refine ⟨key, ?_, fun nd => ⟨rfl, rfl⟩, ?_, ?_⟩
  · intro hlen nd
    obtain ⟨_, _, _, _, h5, h6⟩ := key nd
    have hcast : ((rows * cols : ℕ) : ℤ) = (rows : ℤ) * (cols : ℤ) := by
      push_cast
      ring
    rw [hlen]
    omega
  · unfold Gpu.compute_all_uniforms
    rw [if_neg hguard, List.length_map]
  · unfold Gpu.compute_all_async
    rw [if_neg hguard]
    rcases h : nodes.map (Gpu.precomputeNode b rows cols elev) with _ | ⟨a, l⟩
    · simp only [if_pos]
      have : nodes = [] := by simpa using h
      rw [this]
      rfl
    · rw [if_neg (by simp)]
      show (a :: l).length = nodes.length
      rw [← h, List.length_map]

namespace Gpu

/-- One successful poll (fence already signalled). -/
def pollOnce (e : AsyncEngine) : AsyncEngine := (poll_state true e).1

/-- The bands dispatched by polls `1 .. j` of one node
(the band at row 0 was dispatched before the first poll). -/
def bandsFrom (R j : ℕ) : List DispatchEv :=
  (List.range j).map (fun t =>
    .band (ROWS_PER_CHUNK * (t + 1))
      (min (ROWS_PER_CHUNK * (t + 1) + ROWS_PER_CHUNK) R))

theorem pollN_iter (k : ℕ) (e : AsyncEngine) : pollN k e = pollOnce^[k] e := rfl

theorem pollN_succ (k : ℕ) (e : AsyncEngine) :
    pollN (k + 1) e = pollOnce (pollN k e) := by
  rw [pollN_iter, pollN_iter, Function.iterate_succ_apply']

theorem pollN_add (a b' : ℕ) (e : AsyncEngine) :
    pollN (a + b') e = pollN b' (pollN a e) := by
  rw [pollN_iter, pollN_iter, pollN_iter, Nat.add_comm a b',
    Function.iterate_add_apply]

theorem numBands_pos (R : ℕ) (hR : 1 ≤ R) : 1 ≤ numBands R := by
  unfold numBands ROWS_PER_CHUNK
  omega

theorem numBands_mul_ge (R : ℕ) : R ≤ ROWS_PER_CHUNK * numBands R := by
  unfold numBands ROWS_PER_CHUNK
  omega

theorem band_row_lt (R j : ℕ) (hj : j + 1 < numBands R) :
    ROWS_PER_CHUNK * (j + 1) < R := by
  unfold numBands ROWS_PER_CHUNK at *
  omega

theorem poll_state_unsignaled (e : AsyncEngine) :
    poll_state false e = (e, e.state) := by
  unfold poll_state
  by_cases h : e.state = .DISPATCHED
  · rw [if_neg (fun hn => hn h), if_pos (by simp)]
  · rw [if_pos h]

theorem pollOnce_dispatched (e : AsyncEngine) (hs : e.state = .DISPATCHED)
    (hn : e.nodes ≠ []) : pollOnce e = advance_chunk e := by
  unfold pollOnce poll_state
  rw [if_neg (by simp [hs]), if_neg (by simp), if_pos hn]

theorem pollOnce_band (R C : ℕ) (ps : List ChunkNode) (i cr : ℕ)
    (L : List DispatchEv) (hps : ps ≠ []) (h : cr + ROWS_PER_CHUNK < R) :
    pollOnce ⟨R, C, .DISPATCHED, ps, i, cr, false, L⟩
      = ⟨R, C, .DISPATCHED, ps, i, cr + ROWS_PER_CHUNK, false,
          L ++ [.band (cr + ROWS_PER_CHUNK)
            (min (cr + ROWS_PER_CHUNK + ROWS_PER_CHUNK) R)]⟩ := by
  rw [pollOnce_dispatched _ rfl hps]
  unfold advance_chunk
  dsimp only
  rw [if_neg Bool.false_ne_true, if_pos h]
  rfl

theorem pollOnce_merge (R C : ℕ) (ps : List ChunkNode) (i cr : ℕ)
    (L : List DispatchEv) (hps : ps ≠ []) (h : ¬ (cr + ROWS_PER_CHUNK < R)) :
    pollOnce ⟨R, C, .DISPATCHED, ps, i, cr, false, L⟩
      = ⟨R, C, .DISPATCHED, ps, i, cr + ROWS_PER_CHUNK, true,
          L ++ [.merge]⟩ := by
  rw [pollOnce_dispatched _ rfl hps]
  unfold advance_chunk
  dsimp only
  rw [if_neg Bool.false_ne_true, if_neg h]

theorem pollOnce_next (R C : ℕ) (ps : List ChunkNode) (i cr : ℕ)
    (L : List DispatchEv) (hps : ps ≠ []) (h : i + 1 < ps.length) :
    pollOnce ⟨R, C, .DISPATCHED, ps, i, cr, true, L⟩
      = ⟨R, C, .DISPATCHED, ps, i + 1, 0, false,
          L ++ [.band 0 (min ROWS_PER_CHUNK R)]⟩ := by
  rw [pollOnce_dispatched _ rfl hps]
  unfold advance_chunk
  dsimp only
  rw [if_pos rfl, if_neg (by omega)]
  rfl

theorem pollOnce_finish (R C : ℕ) (ps : List ChunkNode) (i cr : ℕ)
    (L : List DispatchEv) (hps : ps ≠ []) (h : ps.length ≤ i + 1) :
    pollOnce ⟨R, C, .DISPATCHED, ps, i, cr, true, L⟩
      = ⟨R, C, .READY, [], i + 1, 0, false, L⟩ := by
  rw [pollOnce_dispatched _ rfl hps]
  unfold advance_chunk
  dsimp only
  rw [if_pos rfl, if_pos h]

theorem pollN_bands (R C : ℕ) (ps : List ChunkNode) (i : ℕ)
    (L : List DispatchEv) (hps : ps ≠ []) :
    ∀ j, j < numBands R →
      pollN j ⟨R, C, .DISPATCHED, ps, i, 0, false, L⟩
        = ⟨R, C, .DISPATCHED, ps, i, ROWS_PER_CHUNK * j, false,
            L ++ bandsFrom R j⟩ := by
  intro j
  induction j with
  | zero =>
    intro _
    simp [pollN, bandsFrom]
  | succ j ih =>
    intro hj
    have hlt : ROWS_PER_CHUNK * j + ROWS_PER_CHUNK < R := by
      have := band_row_lt R j hj
      rw [mul_add_one] at this
      exact this
    rw [pollN_succ, ih (by omega),
      pollOnce_band R C ps i (ROWS_PER_CHUNK * j) (L ++ bandsFrom R j) hps hlt]
    have hb : bandsFrom R (j + 1)
        = bandsFrom R j ++ [.band (ROWS_PER_CHUNK * j + ROWS_PER_CHUNK)
            (min (ROWS_PER_CHUNK * j + ROWS_PER_CHUNK + ROWS_PER_CHUNK) R)] := by
      unfold bandsFrom
      rw [List.range_succ, List.map_append]
      simp [mul_add_one]
    rw [hb, mul_add_one, List.append_assoc]

theorem pollN_merge (R C : ℕ) (ps : List ChunkNode) (i : ℕ)
    (L : List DispatchEv) (hps : ps ≠ []) (hR : 1 ≤ R) :
    pollN (numBands R) ⟨R, C, .DISPATCHED, ps, i, 0, false, L⟩
      = ⟨R, C, .DISPATCHED, ps, i, ROWS_PER_CHUNK * numBands R, true,
          L ++ bandsFrom R (numBands R - 1) ++ [.merge]⟩ := by
  obtain ⟨m, hm⟩ : ∃ m, numBands R = m + 1 :=
    ⟨numBands R - 1, by have := numBands_pos R hR; omega⟩
  rw [hm, Nat.add_sub_cancel, pollN_succ,
    pollN_bands R C ps i L hps m (by omega)]
  have hge : ¬ (ROWS_PER_CHUNK * m + ROWS_PER_CHUNK < R) := by
    have := numBands_mul_ge R
    rw [hm, mul_add_one] at this
    omega
  rw [pollOnce_merge R C ps i (ROWS_PER_CHUNK * m) (L ++ bandsFrom R m) hps hge,
    mul_add_one, List.append_assoc]

theorem nodeLog_eq (R : ℕ) (hR : 1 ≤ R) :
    nodeLog R = .band 0 (min ROWS_PER_CHUNK R)
      :: (bandsFrom R (numBands R - 1) ++ [DispatchEv.merge]) := by
  unfold nodeLog bandsFrom
  obtain ⟨m, hm⟩ : ∃ m, numBands R = m + 1 :=
    ⟨numBands R - 1, by have := numBands_pos R hR; omega⟩
  rw [hm, Nat.add_sub_cancel, List.range_succ_eq_map, List.map_cons,
    List.map_map]
  simp [Function.comp_def, Nat.succ_eq_add_one]

theorem pollN_segment_next (R C : ℕ) (ps : List ChunkNode) (i : ℕ)
    (L : List DispatchEv) (hps : ps ≠ []) (hR : 1 ≤ R)
    (h : i + 1 < ps.length) :
    pollN (numBands R + 1)
      ⟨R, C, .DISPATCHED, ps, i, 0, false,
        L ++ [.band 0 (min ROWS_PER_CHUNK R)]⟩
      = ⟨R, C, .DISPATCHED, ps, i + 1, 0, false,
          (L ++ nodeLog R) ++ [.band 0 (min ROWS_PER_CHUNK R)]⟩ := by
  rw [pollN_succ, pollN_merge R C ps i _ hps hR,
    pollOnce_next R C ps i (ROWS_PER_CHUNK * numBands R) _ hps h,
    nodeLog_eq R hR]
  simp [List.append_assoc]

theorem pollN_segment_last (R C : ℕ) (ps : List ChunkNode) (i : ℕ)
    (L : List DispatchEv) (hps : ps ≠ []) (hR : 1 ≤ R)
    (h : ps.length ≤ i + 1) :
    pollN (numBands R + 1)
      ⟨R, C, .DISPATCHED, ps, i, 0, false,
        L ++ [.band 0 (min ROWS_PER_CHUNK R)]⟩
      = ⟨R, C, .READY, [], i + 1, 0, false, L ++ nodeLog R⟩ := by
  rw [pollN_succ, pollN_merge R C ps i _ hps hR,
    pollOnce_finish R C ps i (ROWS_PER_CHUNK * numBands R) _ hps h,
    nodeLog_eq R hR]
  simp [List.append_assoc]

theorem pollN_segment_state (R C : ℕ) (ps : List ChunkNode) (i : ℕ)
    (L : List DispatchEv) (hps : ps ≠ []) (hR : 1 ≤ R) :
    ∀ k, k ≤ numBands R →
      (pollN k ⟨R, C, .DISPATCHED, ps, i, 0, false,
        L ++ [.band 0 (min ROWS_PER_CHUNK R)]⟩).state = .DISPATCHED := by
  intro k hk
  rcases Nat.lt_or_ge k (numBands R) with hlt | hge
  · rw [pollN_bands R C ps i _ hps k hlt]
  · have hkeq : k = numBands R := le_antisymm hk hge
    rw [hkeq, pollN_merge R C ps i _ hps hR]

theorem pollN_run (R C : ℕ) (ps : List ChunkNode) (hps : ps ≠ [])
    (hR : 1 ≤ R) :
    ∀ (n : ℕ) (i : ℕ) (L : List DispatchEv), 1 ≤ n → i + n = ps.length →
      (pollN (n * (numBands R + 1))
        ⟨R, C, .DISPATCHED, ps, i, 0, false,
          L ++ [.band 0 (min ROWS_PER_CHUNK R)]⟩
        = ⟨R, C, .READY, [], ps.length, 0, false,
            L ++ (List.replicate n (nodeLog R)).flatten⟩)
      ∧ (∀ k, k < n * (numBands R + 1) →
          (pollN k ⟨R, C, .DISPATCHED, ps, i, 0, false,
            L ++ [.band 0 (min ROWS_PER_CHUNK R)]⟩).state = .DISPATCHED) := by
  intro n
  induction n with
  | zero =>
    intro i L h1 _
    exact absurd h1 (by omega)
  | succ n ih =>
    intro i L _ hi
    rcases Nat.eq_zero_or_pos n with hn0 | hnpos
    · subst hn0
      constructor
      · have hlast : ps.length ≤ i + 1 := by omega
        have hflat : (List.replicate 1 (nodeLog R)).flatten = nodeLog R := by
          simp
        have h01 : (0 + 1) * (numBands R + 1) = numBands R + 1 := by ring
        rw [h01, pollN_segment_last R C ps i L hps hR hlast, hflat]
        have hcur : ps.length = i + 1 := by omega
        rw [hcur]
      · intro k hk
        exact pollN_segment_state R C ps i L hps hR k (by omega)
    · have hmore : i + 1 < ps.length := by omega
      have hsplit : (n + 1) * (numBands R + 1)
          = (numBands R + 1) + n * (numBands R + 1) := by
        ring
      constructor
      · rw [hsplit, pollN_add,
          pollN_segment_next R C ps i L hps hR hmore,
          (ih (i + 1) (L ++ nodeLog R) hnpos (by omega)).1,
          List.replicate_succ, List.flatten_cons, List.append_assoc]
      · intro k hk
        rcases Nat.lt_or_ge k (numBands R + 1) with hk1 | hk2
        · exact pollN_segment_state R C ps i L hps hR k (by omega)
        · obtain ⟨k', rfl⟩ : ∃ k', k = (numBands R + 1) + k' :=
            ⟨k - (numBands R + 1), by omega⟩
          rw [pollN_add, pollN_segment_next R C ps i L hps hR hmore]
          refine (ih (i + 1) (L ++ nodeLog R) hnpos (by omega)).2 k' ?_
          rw [hsplit] at hk
          omega

theorem compute_all_async_eq (b : Mesh3d.QBounds) (rows cols : ℕ)
    (elev : List ℚ) (nodes : List NodeInfo)
    (hguard : ¬ (rows = 0 ∨ cols = 0)) (hne : nodes ≠ []) :
    compute_all_async b rows cols elev nodes
      = ⟨rows, cols, .DISPATCHED, nodes.map (precomputeNode b rows cols elev),
          0, 0, false, [.band 0 (min ROWS_PER_CHUNK rows)]⟩ := by
  unfold compute_all_async
  rw [if_neg hguard, if_neg (by simpa using hne)]
  rfl

end Gpu

/-- **C3**: from the `DISPATCHED` state entered by `compute_all_async` with
`R` composite rows and `N` nodes, each node is dispatched as
`ceil(R/128)` row-bands of `ROWS_PER_CHUNK = 128` rows followed by one
merge pass, exactly `N * (ceil(R/128) + 1)` fence-signalled polls reach
`READY`, every strictly earlier poll leaves the state `DISPATCHED`, an
unsignalled poll changes nothing, and the fence wait always uses a zero
timeout. -/
theorem C3_engine_progress (b : Mesh3d.QBounds) (rows cols : ℕ)
    (elev : List ℚ) (nodes : List Gpu.NodeInfo)
    (hr : 1 ≤ rows) (hc : 1 ≤ cols) (hn : nodes ≠ []) :
    (Gpu.pollN (nodes.length * (Gpu.numBands rows + 1))
        (Gpu.compute_all_async b rows cols elev nodes)).state = .READY
    ∧ (∀ k, k < nodes.length * (Gpu.numBands rows + 1) →
        (Gpu.pollN k (Gpu.compute_all_async b rows cols elev nodes)).state
          = .DISPATCHED)
    ∧ (Gpu.pollN (nodes.length * (Gpu.numBands rows + 1))
        (Gpu.compute_all_async b rows cols elev nodes)).log
        = Gpu.fullLog nodes.length rows
    ∧ Gpu.numBands rows = (rows + Gpu.ROWS_PER_CHUNK - 1) / Gpu.ROWS_PER_CHUNK
    ∧ Gpu.ROWS_PER_CHUNK = 128
    ∧ (∀ e : Gpu.AsyncEngine, Gpu.poll_state false e = (e, e.state))
    ∧ Gpu.POLL_FENCE_TIMEOUT_NS = 0 := by
  have hguard : ¬ (rows = 0 ∨ cols = 0) := by omega
  have hmap : nodes.map (Gpu.precomputeNode b rows cols elev) ≠ [] := by
    simpa using hn
  have hplen : (nodes.map (Gpu.precomputeNode b rows cols elev)).length
      = nodes.length := List.length_map _ _
  have hrun := Gpu.pollN_run rows cols
    (nodes.map (Gpu.precomputeNode b rows cols elev)) hmap hr
    nodes.length 0 []
    (by rw [← hplen]; exact List.length_pos.mpr hmap)
    (by omega)
  rw [List.nil_append] at hrun
  rw [Gpu.compute_all_async_eq b rows cols elev nodes hguard hn]
  have hfin := hrun.1
  rw [hplen] at hfin
  refine ⟨?_, ?_, ?_, rfl, rfl, Gpu.poll_state_unsignaled, rfl⟩
  · rw [hfin]
  · intro k hk
    exact hrun.2 k hk
  · rw [hfin]
    rfl

/-- **C3** witness: 2 composite rows and one node reach `READY` in
exactly `1 * (1 + 1) = 2` polls. -/
theorem C3_engine_progress_witness :
    (Gpu.pollN (([⟨0, 0, 0⟩] : List Gpu.NodeInfo).length
        * (Gpu.numBands 2 + 1))
      (Gpu.compute_all_async ⟨0, 1, 0, 1⟩ 2 1 [0, 0] [⟨0, 0, 0⟩])).state
      = .READY :=
  (C3_engine_progress ⟨0, 1, 0, 1⟩ 2 1 [0, 0] [⟨0, 0, 0⟩]
    (by omega) (by omega) (by simp)).1

/-- **C9** witness: concrete in-bounds index for an out-of-grid node. -/
theorem C9_clamped_lookup_witness :
    0 ≤ Gpu.elevIndex ⟨0, 1, 0, 1⟩ 2 2 ⟨100, 300, 1/2⟩
    ∧ Gpu.elevIndex ⟨0, 1, 0, 1⟩ 2 2 ⟨100, 300, 1/2⟩
        < ((2 : ℕ) : ℤ) * ((2 : ℕ) : ℤ) :=
  ((C9_clamped_lookup ⟨0, 1, 0, 1⟩ 2 2 [] [] (by decide)
      (by decide)).1 ⟨100, 300, 1/2⟩).2.2.2.2

/-! ## Disk cache writes (`src/tile/disk_cache.cpp`)

Paths are encoded by an inductive type instead of strings: only path
equality matters to the model. `Path.cachePath d k` stands for the string
`cache_dir + "/" + key` built by `DiskCache::key_to_path`; `Path.tempPath`
is a distinct path available for a hypothetical temporary file (the code
never creates one). Directory/key names are encoded by naturals. -/

namespace Disk

/-- A filesystem path; `cachePath d k` is `key_to_path`'s result. -/
inductive Path where
  | cachePath (cache_dir key : ℕ)
  | tempPath (cache_dir key : ℕ)
deriving DecidableEq

/-- `DiskCache::key_to_path`. -/
def key_to_path (cache_dir key : ℕ) : Path := .cachePath cache_dir key

/-- The filesystem micro-operations visible to a concurrent reader:
`std::ofstream(path, binary)` creates-or-truncates `path`,
`f.write` fills it, `std::filesystem::rename` moves a file. -/
inductive FsOp where
  | createTruncate (path : Path)
  | writeBytes (path : Path) (bytes : List ℕ)
  | rename (src dst : Path)
deriving DecidableEq

/-- One micro-operation applied to a filesystem (path → file contents). -/
def applyOp (fs : Path → Option (List ℕ)) : FsOp → Path → Option (List ℕ)
  | .createTruncate p, q => if q = p then some [] else fs q
  | .writeBytes p bytes, q =>
      if q = p then
        match fs p with
        | some _ => some bytes
        | none => none
      else fs q
  | .rename src dst, q =>
      if q = dst then fs src else if q = src then none else fs q

/-- Run a micro-operation trace. -/
def run (fs : Path → Option (List ℕ)) (ops : List FsOp) :
    Path → Option (List ℕ) :=
  ops.foldl applyOp fs

/-- The micro-operation trace of `DiskCache::write(key, bytes)` after
`ensure_dir` succeeds: open the FINAL path with a truncating
`std::ofstream` and write the payload into it — in place. -/
def writeTrace (cache_dir key : ℕ) (bytes : List ℕ) : List FsOp :=
  [.createTruncate (key_to_path cache_dir key),
   .writeBytes (key_to_path cache_dir key) bytes]

/-- The temp-rename pattern as the specification words it: the payload
goes to some path different from the final one, which is then renamed
into the final location, and the final path is never opened or written
directly. -/
def writesViaTempRename (ops : List FsOp) (finalPath : Path) : Bool :=
  ops.any (fun op =>
    match op with
    | .rename _ dst => dst = finalPath
    | _ => false)
  && ops.all (fun op =>
    match op with
    | .createTruncate p => ¬ (p = finalPath)
    | .writeBytes p _ => ¬ (p = finalPath)
    | .rename _ _ => true)

end Disk

/-- **C6** (counterexample). The trace of `DiskCache::write` contains no
rename at all — in particular it does not follow the temp-rename pattern —
and a reader between the truncating open and the payload write observes
the empty file: with old contents `[9]` and payload `[1, 2]` the mid-write
observation is `some []`, which is neither the old nor the new contents. -/
theorem C6_disk_write_counterexample :
    Disk.writesViaTempRename (Disk.writeTrace 0 0 [1, 2])
        (Disk.key_to_path 0 0) = false
    ∧ (Disk.writeTrace 0 0 [1, 2]).all (fun op =>
        match op with
        | Disk.FsOp.rename _ _ => false
        | _ => true) = true
    ∧ Disk.run (fun q => if q = Disk.key_to_path 0 0 then some [9] else none)
        ((Disk.writeTrace 0 0 [1, 2]).take 1) (Disk.key_to_path 0 0)
        = some []
    ∧ some ([] : List ℕ) ≠ some [9]
    ∧ some ([] : List ℕ) ≠ some [1, 2] := by
  refine ⟨rfl, rfl, rfl, by simp, by simp⟩

/-- **C6** (amended). `DiskCache::write(key, bytes)` writes the final
cache path in place: its trace truncates `key_to_path(key)` and then
writes the payload there, never renaming anything; after the trace the
file holds the payload and no other path changed, but after the first
micro-operation alone a concurrent `read` of that key sees `some []` —
a partially written (empty) file, observable whenever the old or new
contents are nonempty. This refutes the spec's temp-rename sentence. -/
theorem C6_disk_write (cache_dir key : ℕ) (bytes old : List ℕ)
    (fs : Disk.Path → Option (List ℕ))
    (_hold : fs (Disk.key_to_path cache_dir key) = some old) :
    Disk.run fs (Disk.writeTrace cache_dir key bytes)
        (Disk.key_to_path cache_dir key) = some bytes
    ∧ (∀ src dst, Disk.FsOp.rename src dst
        ∉ Disk.writeTrace cache_dir key bytes)
    ∧ Disk.run fs ((Disk.writeTrace cache_dir key bytes).take 1)
        (Disk.key_to_path cache_dir key) = some []
    ∧ (old ≠ [] →
        Disk.run fs ((Disk.writeTrace cache_dir key bytes).take 1)
          (Disk.key_to_path cache_dir key) ≠ some old)
    ∧ (bytes ≠ [] →
        Disk.run fs ((Disk.writeTrace cache_dir key bytes).take 1)
          (Disk.key_to_path cache_dir key) ≠ some bytes)
    ∧ (∀ q, q ≠ Disk.key_to_path cache_dir key →
        Disk.run fs (Disk.writeTrace cache_dir key bytes) q = fs q) := by
  have hfull : ∀ q, Disk.run fs (Disk.writeTrace cache_dir key bytes) q
      = Disk.applyOp
          (Disk.applyOp fs
            (Disk.FsOp.createTruncate (Disk.key_to_path cache_dir key)))
          (Disk.FsOp.writeBytes (Disk.key_to_path cache_dir key) bytes)
          q := fun _ => rfl
  have hmid : ∀ q, Disk.run fs ((Disk.writeTrace cache_dir key bytes).take 1) q
      = Disk.applyOp fs
          (Disk.FsOp.createTruncate (Disk.key_to_path cache_dir key))
          q := fun _ => rfl
  have hmideq : Disk.run fs ((Disk.writeTrace cache_dir key bytes).take 1)
      (Disk.key_to_path cache_dir key) = some [] := by
    rw [hmid]
    simp [Disk.applyOp]
  refine ⟨?_, ?_, hmideq, ?_, ?_, ?_⟩
  · rw [hfull]
    simp [Disk.applyOp]
  · intro src dst hmem
    simp [Disk.writeTrace] at hmem
  · intro hne
    rw [hmideq]
    intro hc
    exact hne (Option.some.inj hc).symm
  · intro hne
    rw [hmideq]
    intro hc
    exact hne (Option.some.inj hc).symm
  · intro q hq
    rw [hfull]
    simp [Disk.applyOp, hq]

/-- **C6** witness: concrete in-place write of `[1, 2]` over `[9]`. -/
theorem C6_disk_write_witness :
    Disk.run (fun q => if q = Disk.key_to_path 0 0 then some [9] else none)
        (Disk.writeTrace 0 0 [1, 2]) (Disk.key_to_path 0 0) = some [1, 2] :=
  (C6_disk_write 0 0 [1, 2] [9]
    (fun q => if q = Disk.key_to_path 0 0 then some [9] else none)
    (by simp)).1

/-! ## Slippy-map tile conversions (`src/tile/tile_coord.h`)

The conversions use `double` trigonometry; they are embedded over `ℝ`
(the one noncomputable corner of this development). `realTrunc` is
`static_cast<int>` (truncation toward zero), `Gpu.cClamp` is
`std::clamp`, and `n = 1 << z` is `2^z`. -/

namespace Tile

/-- `static_cast<int>` on a double value. -/
noncomputable def realTrunc (x : ℝ) : ℤ :=
  if x < 0 then ⌈x⌉ else ⌊x⌋

/-- `lon_to_tile_x_frac`: `(lon + 180) / 360 * n`. -/
noncomputable def lonToTileXFrac (lon : ℝ) (z : ℕ) : ℝ :=
  (lon + 180) / 360 * 2 ^ z

/-- `lat_to_tile_y_frac`:
`(1 - log(tan(lat_rad) + 1 / cos(lat_rad)) / π) / 2 * n`. -/
noncomputable def latToTileYFrac (lat : ℝ) (z : ℕ) : ℝ :=
  (1 - Real.log (Real.tan (lat * Real.pi / 180)
      + 1 / Real.cos (lat * Real.pi / 180)) / Real.pi) / 2 * 2 ^ z

/-- `lon_to_tile_x`: truncate the fraction, clamp into `[0, 2^z - 1]`. -/
noncomputable def lon_to_tile_x (lon : ℝ) (z : ℕ) : ℤ :=
  Gpu.cClamp (realTrunc (lonToTileXFrac lon z)) 0 (2 ^ z - 1)

/-- `lat_to_tile_y`: truncate the fraction, clamp into `[0, 2^z - 1]`. -/
noncomputable def lat_to_tile_y (lat : ℝ) (z : ℕ) : ℤ :=
  Gpu.cClamp (realTrunc (latToTileYFrac lat z)) 0 (2 ^ z - 1)

/-- Real-valued geographic bounds (`mesh3d_bounds_t`). -/
structure RBounds where
  min_lat : ℝ
  max_lat : ℝ
  min_lon : ℝ
  max_lon : ℝ

/-- The latitude of the mercator grid line at fractional row `v`:
`atan(sinh(π(1 - 2 v / n))) * 180 / π`. -/
noncomputable def tileLat (z : ℕ) (v : ℝ) : ℝ :=
  Real.arctan (Real.sinh (Real.pi * (1 - 2 * v / 2 ^ z))) * 180 / Real.pi

/-- `tile_bounds`. -/
noncomputable def tile_bounds (z : ℕ) (x y : ℤ) : RBounds :=
  { min_lat := tileLat z ((y : ℝ) + 1)
    max_lat := tileLat z (y : ℝ)
    min_lon := (x : ℝ) / 2 ^ z * 360 - 180
    max_lon := ((x : ℝ) + 1) / 2 ^ z * 360 - 180 }

/-- Two bounds rectangles intersect (closed boxes). -/
def Overlaps (a bb : RBounds) : Prop :=
  a.min_lon ≤ bb.max_lon ∧ bb.min_lon ≤ a.max_lon
  ∧ a.min_lat ≤ bb.max_lat ∧ bb.min_lat ≤ a.max_lat

/-- `bounds_to_tile_range`: the double loop
`for y in [y_min, y_max], for x in [x_min, x_max]` with
`x_min = lon_to_tile_x(min_lon)`, `x_max = lon_to_tile_x(max_lon)`,
`y_min = lat_to_tile_y(max_lat)`, `y_max = lat_to_tile_y(min_lat)`. -/
noncomputable def bounds_to_tile_range (b : RBounds) (zoom : ℕ) :
    List Mesh3d.TileCoord :=
  (List.range (lat_to_tile_y b.min_lat zoom - lat_to_tile_y b.max_lat zoom
      + 1).toNat).flatMap
    (fun (dy : ℕ) =>
      (List.range (lon_to_tile_x b.max_lon zoom - lon_to_tile_x b.min_lon zoom
          + 1).toNat).map
        (fun (dx : ℕ) =>
          ⟨(zoom : ℤ), lon_to_tile_x b.min_lon zoom + (dx : ℤ),
            lat_to_tile_y b.max_lat zoom + (dy : ℤ)⟩))

theorem mem_bounds_to_tile_range (b : RBounds) (zoom : ℕ)
    (t : Mesh3d.TileCoord) :
    t ∈ bounds_to_tile_range b zoom ↔
      t.z = (zoom : ℤ)
      ∧ lon_to_tile_x b.min_lon zoom ≤ t.x
      ∧ t.x ≤ lon_to_tile_x b.max_lon zoom
      ∧ lat_to_tile_y b.max_lat zoom ≤ t.y
      ∧ t.y ≤ lat_to_tile_y b.min_lat zoom := by
  unfold bounds_to_tile_range
  rw [List.mem_flatMap]
  constructor
  · rintro ⟨dy, hdy, hmem⟩
    rw [List.mem_range] at hdy
    rw [List.mem_map] at hmem
    obtain ⟨dx, hdx, rfl⟩ := hmem
    rw [List.mem_range] at hdx
    refine ⟨rfl, ?_, ?_, ?_, ?_⟩ <;> dsimp only <;> omega
  · rintro ⟨hz, hx1, hx2, hy1, hy2⟩
    refine ⟨(t.y - lat_to_tile_y b.max_lat zoom).toNat,
      by rw [List.mem_range]; omega, ?_⟩
    rw [List.mem_map]
    refine ⟨(t.x - lon_to_tile_x b.min_lon zoom).toNat,
      by rw [List.mem_range]; omega, ?_⟩
    obtain ⟨tz, tx, ty⟩ := t
    dsimp only at hx1 hx2 hy1 hy2 ⊢
    rw [Mesh3d.TileCoord.mk.injEq]
    refine ⟨hz.symm, by omega, by omega⟩

theorem cClamp_mono (lo hi : ℤ) (hlh : lo ≤ hi) {v w : ℤ} (h : v ≤ w) :
    Gpu.cClamp v lo hi ≤ Gpu.cClamp w lo hi := by
  unfold Gpu.cClamp
  split_ifs <;> omega

theorem realTrunc_of_nonneg {f : ℝ} (h : 0 ≤ f) : realTrunc f = ⌊f⌋ := by
  unfold realTrunc
  rw [if_neg (not_lt.mpr h)]

theorem clamp_floor_le {f : ℝ} {n : ℤ} (h0 : 0 ≤ f) (_hn : 1 ≤ n) :
    ((Gpu.cClamp ⌊f⌋ 0 (n - 1) : ℤ) : ℝ) ≤ f := by
  have hf : (⌊f⌋ : ℝ) ≤ f := Int.floor_le f
  have hf0 : 0 ≤ ⌊f⌋ := Int.floor_nonneg.mpr h0
  unfold Gpu.cClamp
  split_ifs with hA hB
  · exact_mod_cast h0
  · have hcast : ((n - 1 : ℤ) : ℝ) ≤ (⌊f⌋ : ℝ) :=
      Int.cast_le.mpr (by omega)
    linarith
  · exact hf

theorem lt_clamp_floor_add_one {f : ℝ} {n : ℤ} (h0 : 0 ≤ f)
    (hfn : f < (n : ℝ)) :
    f < ((Gpu.cClamp ⌊f⌋ 0 (n - 1) : ℤ) : ℝ) + 1 := by
  have hf0 : 0 ≤ ⌊f⌋ := Int.floor_nonneg.mpr h0
  have hfl : ⌊f⌋ < n := Int.floor_lt.mpr hfn
  have hcl : Gpu.cClamp ⌊f⌋ 0 (n - 1) = ⌊f⌋ := by
    unfold Gpu.cClamp
    rw [if_neg (by omega), if_neg (by omega)]
  rw [hcl]
  exact Int.lt_floor_add_one f

theorem log_tan_add_inv_cos (θ : ℝ) (h1 : -(Real.pi / 2) < θ)
    (h2 : θ < Real.pi / 2) :
    Real.log (Real.tan θ + 1 / Real.cos θ) = Real.arsinh (Real.tan θ) := by
  have hcos : 0 < Real.cos θ := Real.cos_pos_of_mem_Ioo ⟨h1, h2⟩
  unfold Real.arsinh
  rw [← Real.inv_sqrt_one_add_tan_sq hcos, one_div, inv_inv]

theorem rad_lt {lat : ℝ} (h1 : -90 < lat) (h2 : lat < 90) :
    -(Real.pi / 2) < lat * Real.pi / 180 ∧ lat * Real.pi / 180 < Real.pi / 2 := by
  have hπ := Real.pi_pos
  constructor
  · nlinarith [mul_pos hπ (show (0:ℝ) < lat + 90 by linarith)]
  · nlinarith [mul_pos hπ (show (0:ℝ) < 90 - lat by linarith)]

theorem fracY_eq (lat : ℝ) (z : ℕ) (h1 : -90 < lat) (h2 : lat < 90) :
    latToTileYFrac lat z
      = (1 - Real.arsinh (Real.tan (lat * Real.pi / 180)) / Real.pi) / 2
          * 2 ^ z := by
  obtain ⟨hm1, hm2⟩ := rad_lt h1 h2
  unfold latToTileYFrac
  rw [log_tan_add_inv_cos _ hm1 hm2]

theorem tileLat_anti {z : ℕ} {u v : ℝ} (h : u ≤ v) :
    tileLat z v ≤ tileLat z u := by
  unfold tileLat
  have hπ := Real.pi_pos
  have h2z : (0:ℝ) < 2 ^ z := by positivity
  have hdiv : 2 * u / 2 ^ z ≤ 2 * v / 2 ^ z :=
    (div_le_div_iff_of_pos_right h2z).mpr (by linarith)
  have harg : Real.pi * (1 - 2 * v / 2 ^ z) ≤ Real.pi * (1 - 2 * u / 2 ^ z) :=
    mul_le_mul_of_nonneg_left (by linarith) hπ.le
  have hs := Real.sinh_le_sinh.mpr harg
  have ha := Real.arctan_strictMono.monotone hs
  have hmul := mul_le_mul_of_nonneg_right ha (by norm_num : (0:ℝ) ≤ 180)
  exact (div_le_div_iff_of_pos_right hπ).mpr hmul

theorem tileLat_fracY (z : ℕ) (lat : ℝ) (h1 : -90 < lat) (h2 : lat < 90) :
    tileLat z (latToTileYFrac lat z) = lat := by
  obtain ⟨hm1, hm2⟩ := rad_lt h1 h2
  rw [fracY_eq lat z h1 h2]
  unfold tileLat
  have hπ : Real.pi ≠ 0 := Real.pi_ne_zero
  have h2z : ((2:ℝ) ^ z) ≠ 0 := by positivity
  have harg : Real.pi * (1 - 2 * ((1 - Real.arsinh (Real.tan
      (lat * Real.pi / 180)) / Real.pi) / 2 * 2 ^ z) / 2 ^ z)
      = Real.arsinh (Real.tan (lat * Real.pi / 180)) := by
    field_simp
    ring
  rw [harg, Real.sinh_arsinh, Real.arctan_tan hm1 hm2]
  field_simp

theorem fracY_anti {z : ℕ} {a c : ℝ} (ha1 : -90 < a) (hc2 : c < 90)
    (h : a ≤ c) : latToTileYFrac c z ≤ latToTileYFrac a z := by
  have ha2 : a < 90 := lt_of_le_of_lt h hc2
  have hc1 : -90 < c := lt_of_lt_of_le ha1 h
  obtain ⟨ham1, ham2⟩ := rad_lt ha1 ha2
  obtain ⟨hcm1, hcm2⟩ := rad_lt hc1 hc2
  rw [fracY_eq a z ha1 ha2, fracY_eq c z hc1 hc2]
  have hπ := Real.pi_pos
  have htan : Real.tan (a * Real.pi / 180) ≤ Real.tan (c * Real.pi / 180) := by
    rcases eq_or_lt_of_le h with rfl | hlt
    · exact le_rfl
    · refine le_of_lt (Real.strictMonoOn_tan (Set.mem_Ioo.mpr ⟨ham1, ham2⟩)
        (Set.mem_Ioo.mpr ⟨hcm1, hcm2⟩) ?_)
      nlinarith [mul_pos hπ (show (0:ℝ) < c - a by linarith)]
  have hars := Real.arsinh_le_arsinh.mpr htan
  have h2z : (0:ℝ) ≤ 2 ^ z := by positivity
  refine mul_le_mul_of_nonneg_right ?_ h2z
  refine (div_le_div_iff_of_pos_right (by norm_num : (0:ℝ) < 2)).mpr ?_
  have := (div_le_div_iff_of_pos_right hπ).mpr hars
  linarith

theorem le_tileLat {z : ℕ} {lat v : ℝ} (h1 : -90 < lat) (h2 : lat < 90)
    (hv : v ≤ latToTileYFrac lat z) : lat ≤ tileLat z v :=
  calc lat = tileLat z (latToTileYFrac lat z) := (tileLat_fracY z lat h1 h2).symm
    _ ≤ tileLat z v := tileLat_anti hv

theorem tileLat_le {z : ℕ} {lat v : ℝ} (h1 : -90 < lat) (h2 : lat < 90)
    (hv : latToTileYFrac lat z ≤ v) : tileLat z v ≤ lat :=
  calc tileLat z v ≤ tileLat z (latToTileYFrac lat z) := tileLat_anti hv
    _ = lat := tileLat_fracY z lat h1 h2

theorem fX_nonneg {lon : ℝ} (z : ℕ) (h : -180 ≤ lon) :
    0 ≤ lonToTileXFrac lon z := by
  unfold lonToTileXFrac
  exact mul_nonneg (div_nonneg (by linarith) (by norm_num)) (by positivity)

theorem fX_lt {lon : ℝ} (z : ℕ) (h : lon < 180) :
    lonToTileXFrac lon z < 2 ^ z := by
  unfold lonToTileXFrac
  have h2z : (0:ℝ) < 2 ^ z := by positivity
  have hd : (lon + 180) / 360 < 1 := (div_lt_one (by norm_num)).mpr (by linarith)
  calc (lon + 180) / 360 * 2 ^ z < 1 * 2 ^ z := mul_lt_mul_of_pos_right hd h2z
    _ = 2 ^ z := one_mul _

theorem fX_mono {a c : ℝ} (z : ℕ) (h : a ≤ c) :
    lonToTileXFrac a z ≤ lonToTileXFrac c z := by
  unfold lonToTileXFrac
  exact mul_le_mul_of_nonneg_right
    ((div_le_div_iff_of_pos_right (by norm_num : (0:ℝ) < 360)).mpr (by linarith))
    (by positivity)

theorem fX_inv (lon : ℝ) (z : ℕ) :
    lonToTileXFrac lon z / 2 ^ z * 360 - 180 = lon := by
  unfold lonToTileXFrac
  have h2z : ((2:ℝ) ^ z) ≠ 0 := by positivity
  rw [mul_div_cancel_right₀ _ h2z,
    div_mul_cancel₀ _ (by norm_num : (360:ℝ) ≠ 0)]
  ring

theorem lonOfX_mono {u v : ℝ} (z : ℕ) (h : u ≤ v) :
    u / 2 ^ z * 360 - 180 ≤ v / 2 ^ z * 360 - 180 := by
  have h2z : (0:ℝ) < 2 ^ z := by positivity
  have := mul_le_mul_of_nonneg_right ((div_le_div_iff_of_pos_right h2z).mpr h)
    (by norm_num : (0:ℝ) ≤ 360)
  linarith

end Tile

/-- **C7** (counterexample). The claim quantifies over every bounds with
`min < max` on each axis, but for `b = [0,1]×[190,200]` (outside the
`[-180,180]` longitude domain) at zoom 0 the clamping forces the single
tile `(0,0)`, whose longitude span `[-180,180]` is disjoint from
`[190,200]`: the enumeration returns a tile whose bounds are disjoint
from `b`. -/
theorem C7_tile_range_counterexample :
    Tile.bounds_to_tile_range ⟨0, 1, 190, 200⟩ 0 = [⟨0, 0, 0⟩]
    ∧ (Tile.tile_bounds 0 0 0).max_lon = 180
    ∧ ¬ Tile.Overlaps (Tile.tile_bounds 0 0 0) ⟨0, 1, 190, 200⟩ := by
  have h0 : (2:ℤ) ^ (0:ℕ) - 1 = 0 := by norm_num
  have hcl : ∀ v : ℤ, Gpu.cClamp v 0 ((2:ℤ) ^ (0:ℕ) - 1) = 0 := by
    intro v
    rw [h0]
    unfold Gpu.cClamp
    split_ifs <;> omega
  have hx1 : Tile.lon_to_tile_x (190:ℝ) 0 = 0 := hcl _
  have hx2 : Tile.lon_to_tile_x (200:ℝ) 0 = 0 := hcl _
  have hy1 : Tile.lat_to_tile_y (0:ℝ) 0 = 0 := hcl _
  have hy2 : Tile.lat_to_tile_y (1:ℝ) 0 = 0 := hcl _
  refine ⟨?_, ?_, ?_⟩
  · unfold Tile.bounds_to_tile_range
    dsimp only
    rw [hx1, hx2, hy1, hy2]
    norm_num
    rfl
  · unfold Tile.tile_bounds
    dsimp only
    norm_num
  · unfold Tile.Overlaps Tile.tile_bounds
    dsimp only
    rintro ⟨hA, hB, hC, hD⟩
    norm_num at hB

/-- **C7** (amended). For bounds inside the slippy-map domain —
longitudes within `[-180, 180]`, `min < max` on both axes, latitudes in
`(-90, 90)` with the fractional row coordinates inside `[0, 2^z)` (i.e.
within the mercator band) — `bounds_to_tile_range` contains the four
corner tiles assigned by the conversions, and every returned tile is at
the requested zoom with bounds overlapping `b`; and for EVERY input
(no hypotheses needed) `lon_to_tile_x` and `lat_to_tile_y` are clamped
into `[0, 2^z - 1]`. -/
theorem C7_tile_range (b : Tile.RBounds) (z : ℕ)
    (h1 : -180 ≤ b.min_lon) (h2 : b.max_lon ≤ 180)
    (h3 : b.min_lon < b.max_lon) (h4 : b.min_lat < b.max_lat)
    (h5 : -90 < b.min_lat) (h6 : b.max_lat < 90)
    (h7 : 0 ≤ Tile.latToTileYFrac b.max_lat z)
    (h8 : Tile.latToTileYFrac b.min_lat z < 2 ^ z) :
    (∀ lon lat : ℝ,
        (0 ≤ Tile.lon_to_tile_x lon z ∧ Tile.lon_to_tile_x lon z ≤ 2 ^ z - 1)
        ∧ (0 ≤ Tile.lat_to_tile_y lat z
            ∧ Tile.lat_to_tile_y lat z ≤ 2 ^ z - 1))
    ∧ (⟨(z : ℤ), Tile.lon_to_tile_x b.min_lon z,
          Tile.lat_to_tile_y b.min_lat z⟩ : TileCoord)
        ∈ Tile.bounds_to_tile_range b z
    ∧ (⟨(z : ℤ), Tile.lon_to_tile_x b.max_lon z,
          Tile.lat_to_tile_y b.min_lat z⟩ : TileCoord)
        ∈ Tile.bounds_to_tile_range b z
    ∧ (⟨(z : ℤ), Tile.lon_to_tile_x b.min_lon z,
          Tile.lat_to_tile_y b.max_lat z⟩ : TileCoord)
        ∈ Tile.bounds_to_tile_range b z
    ∧ (⟨(z : ℤ), Tile.lon_to_tile_x b.max_lon z,
          Tile.lat_to_tile_y b.max_lat z⟩ : TileCoord)
        ∈ Tile.bounds_to_tile_range b z
    ∧ (∀ t ∈ Tile.bounds_to_tile_range b z,
        t.z = (z : ℤ) ∧ Tile.Overlaps (Tile.tile_bounds z t.x t.y) b) := by
  have h2zpos : (0:ℤ) < 2 ^ z := by positivity
  have h2z1 : (1:ℤ) ≤ 2 ^ z := h2zpos
  have hcastn : (((2:ℤ) ^ z : ℤ) : ℝ) = (2:ℝ) ^ z := by
    push_cast
    ring
  have h5' : b.min_lat < 90 := lt_trans h4 h6
  have h6' : -90 < b.max_lat := lt_trans h5 h4
  have hfx1n : 0 ≤ Tile.lonToTileXFrac b.min_lon z := Tile.fX_nonneg z h1
  have hfx2n : 0 ≤ Tile.lonToTileXFrac b.max_lon z :=
    Tile.fX_nonneg z (by linarith)
  have hfx1lt : Tile.lonToTileXFrac b.min_lon z < 2 ^ z :=
    Tile.fX_lt z (by linarith)
  have hganti : Tile.latToTileYFrac b.max_lat z
      ≤ Tile.latToTileYFrac b.min_lat z :=
    Tile.fracY_anti h5 h6 (le_of_lt h4)
  have hgminn : 0 ≤ Tile.latToTileYFrac b.min_lat z := le_trans h7 hganti
  have hgmaxlt : Tile.latToTileYFrac b.max_lat z < 2 ^ z :=
    lt_of_le_of_lt hganti h8
  have e1 : Tile.lon_to_tile_x b.min_lon z
      = Gpu.cClamp ⌊Tile.lonToTileXFrac b.min_lon z⌋ 0 (2 ^ z - 1) := by
    unfold Tile.lon_to_tile_x
    rw [Tile.realTrunc_of_nonneg hfx1n]
  have e2 : Tile.lon_to_tile_x b.max_lon z
      = Gpu.cClamp ⌊Tile.lonToTileXFrac b.max_lon z⌋ 0 (2 ^ z - 1) := by
    unfold Tile.lon_to_tile_x
    rw [Tile.realTrunc_of_nonneg hfx2n]
  have e3 : Tile.lat_to_tile_y b.max_lat z
      = Gpu.cClamp ⌊Tile.latToTileYFrac b.max_lat z⌋ 0 (2 ^ z - 1) := by
    unfold Tile.lat_to_tile_y
    rw [Tile.realTrunc_of_nonneg h7]
  have e4 : Tile.lat_to_tile_y b.min_lat z
      = Gpu.cClamp ⌊Tile.latToTileYFrac b.min_lat z⌋ 0 (2 ^ z - 1) := by
    unfold Tile.lat_to_tile_y
    rw [Tile.realTrunc_of_nonneg hgminn]
  have hA1 : ((Tile.lon_to_tile_x b.max_lon z : ℤ) : ℝ)
      ≤ Tile.lonToTileXFrac b.max_lon z := by
    rw [e2]
    exact Tile.clamp_floor_le hfx2n h2z1
  have hA2 : Tile.lonToTileXFrac b.min_lon z
      < ((Tile.lon_to_tile_x b.min_lon z : ℤ) : ℝ) + 1 := by
    rw [e1]
    exact Tile.lt_clamp_floor_add_one hfx1n (by rw [hcastn]; exact hfx1lt)
  have hB1 : ((Tile.lat_to_tile_y b.min_lat z : ℤ) : ℝ)
      ≤ Tile.latToTileYFrac b.min_lat z := by
    rw [e4]
    exact Tile.clamp_floor_le hgminn h2z1
  have hB2 : Tile.latToTileYFrac b.max_lat z
      < ((Tile.lat_to_tile_y b.max_lat z : ℤ) : ℝ) + 1 := by
    rw [e3]
    exact Tile.lt_clamp_floor_add_one h7 (by rw [hcastn]; exact hgmaxlt)
  have hxm : Tile.lon_to_tile_x b.min_lon z ≤ Tile.lon_to_tile_x b.max_lon z := by
    rw [e1, e2]
    exact Tile.cClamp_mono 0 (2 ^ z - 1) (by omega)
      (Int.floor_le_floor (Tile.fX_mono z (le_of_lt h3)))
  have hym : Tile.lat_to_tile_y b.max_lat z ≤ Tile.lat_to_tile_y b.min_lat z := by
    rw [e3, e4]
    exact Tile.cClamp_mono 0 (2 ^ z - 1) (by omega)
      (Int.floor_le_floor hganti)
  have hclampAll : ∀ lon lat : ℝ,
      (0 ≤ Tile.lon_to_tile_x lon z ∧ Tile.lon_to_tile_x lon z ≤ 2 ^ z - 1)
      ∧ (0 ≤ Tile.lat_to_tile_y lat z
          ∧ Tile.lat_to_tile_y lat z ≤ 2 ^ z - 1) := by
    intro lon lat
    have hBx := Gpu.cClamp_bounds (Tile.realTrunc (Tile.lonToTileXFrac lon z))
      0 (2 ^ z - 1) (by omega)
    have hBy := Gpu.cClamp_bounds (Tile.realTrunc (Tile.latToTileYFrac lat z))
      0 (2 ^ z - 1) (by omega)
    exact ⟨⟨hBx.1, hBx.2⟩, hBy.1, hBy.2⟩
  refine ⟨hclampAll, ?_, ?_, ?_, ?_, ?_⟩
  · exact (Tile.mem_bounds_to_tile_range b z _).mpr
      ⟨rfl, le_refl _, hxm, hym, le_refl _⟩
  · exact (Tile.mem_bounds_to_tile_range b z _).mpr
      ⟨rfl, hxm, le_refl _, hym, le_refl _⟩
  · exact (Tile.mem_bounds_to_tile_range b z _).mpr
      ⟨rfl, le_refl _, hxm, le_refl _, hym⟩
  · exact (Tile.mem_bounds_to_tile_range b z _).mpr
      ⟨rfl, hxm, le_refl _, le_refl _, hym⟩
  · intro t ht
    obtain ⟨hz, hx1i, hx2i, hy1i, hy2i⟩ :=
      (Tile.mem_bounds_to_tile_range b z t).mp ht
    refine ⟨hz, ?_⟩
    unfold Tile.Overlaps Tile.tile_bounds
    dsimp only
    refine ⟨?_, ?_, ?_, ?_⟩
    · have hc : (t.x : ℝ) ≤ Tile.lonToTileXFrac b.max_lon z :=
        le_trans (by exact_mod_cast hx2i) hA1
      calc (t.x : ℝ) / 2 ^ z * 360 - 180
          ≤ Tile.lonToTileXFrac b.max_lon z / 2 ^ z * 360 - 180 :=
            Tile.lonOfX_mono z hc
        _ = b.max_lon := Tile.fX_inv _ z
    · have hcast : ((Tile.lon_to_tile_x b.min_lon z : ℤ) : ℝ) ≤ (t.x : ℝ) := by
        exact_mod_cast hx1i
      have hc : Tile.lonToTileXFrac b.min_lon z ≤ (t.x : ℝ) + 1 := by
        linarith [hA2]
      calc b.min_lon
          = Tile.lonToTileXFrac b.min_lon z / 2 ^ z * 360 - 180 :=
            (Tile.fX_inv _ z).symm
        _ ≤ ((t.x : ℝ) + 1) / 2 ^ z * 360 - 180 := Tile.lonOfX_mono z hc
    · refine Tile.tileLat_le h6' h6 ?_
      have hcast : ((Tile.lat_to_tile_y b.max_lat z : ℤ) : ℝ) ≤ (t.y : ℝ) := by
        exact_mod_cast hy1i
      linarith [hB2]
    · refine Tile.le_tileLat h5 h5' ?_
      have hcast : (t.y : ℝ) ≤ ((Tile.lat_to_tile_y b.min_lat z : ℤ) : ℝ) := by
        exact_mod_cast hy2i
      linarith [hB1]

/-- **C7** witness: for `b = [-45, 0] × [0, 90]` at zoom 0 the
corner tile of `(min_lon, min_lat)` is in the enumeration. -/
theorem C7_tile_range_witness :
    (⟨(0 : ℤ), Tile.lon_to_tile_x (0 : ℝ) 0, Tile.lat_to_tile_y (-45 : ℝ) 0⟩
      : TileCoord) ∈ Tile.bounds_to_tile_range ⟨-45, 0, 0, 90⟩ 0 := by
  have hs0 : Real.sqrt 2 ≠ 0 := by positivity
  have hmul2 : Real.sqrt 2 * Real.sqrt 2 = 2 := Real.mul_self_sqrt (by norm_num)
  have hf0 : Tile.latToTileYFrac 0 0 = 1 / 2 := by
    unfold Tile.latToTileYFrac
    norm_num [Real.tan_zero, Real.cos_zero, Real.log_one]
  have hc : 1 / (Real.sqrt 2 / 2) = Real.sqrt 2 := by
    field_simp
  have hfneg : Tile.latToTileYFrac (-45) 0
      = (1 - Real.log (Real.sqrt 2 - 1) / Real.pi) / 2 := by
    unfold Tile.latToTileYFrac
    have hθ : (-45 : ℝ) * Real.pi / 180 = -(Real.pi / 4) := by ring
    rw [hθ, Real.tan_neg, Real.tan_pi_div_four, Real.cos_neg,
      Real.cos_pi_div_four, hc,
      show (-1 + Real.sqrt 2 : ℝ) = Real.sqrt 2 - 1 from by ring]
    norm_num
  have hpos : (0:ℝ) < Real.sqrt 2 - 1 := by
    have h1 : (1:ℝ) < Real.sqrt 2 := by
      rw [show (1:ℝ) = Real.sqrt 1 from (Real.sqrt_one).symm]
      exact Real.sqrt_lt_sqrt (by norm_num) (by norm_num)
    linarith
  have hlog : -Real.pi < Real.log (Real.sqrt 2 - 1) := by
    rw [Real.lt_log_iff_exp_lt hpos]
    have hcube : (8:ℝ) < Real.exp 1 * Real.exp 1 * Real.exp 1 := by
      nlinarith [Real.exp_one_gt_d9]
    have he3 : Real.exp (-3) < 1 / 8 := by
      rw [Real.exp_neg, show (3:ℝ) = 1 + 1 + 1 from by norm_num,
        Real.exp_add, Real.exp_add, inv_eq_one_div]
      calc 1 / (Real.exp 1 * Real.exp 1 * Real.exp 1) < 1 / 8 :=
          one_div_lt_one_div_of_lt (by norm_num) hcube
        _ = 1 / 8 := rfl
    have he : Real.exp (-Real.pi) < Real.exp (-3) :=
      Real.exp_lt_exp.mpr (by linarith [Real.pi_gt_three])
    have hsq : (1:ℝ) / 8 < Real.sqrt 2 - 1 := by
      have h98 : (9/8 : ℝ) < Real.sqrt 2 := by
        rw [show Real.sqrt 2 = Real.sqrt 2 from rfl]
        have := (Real.lt_sqrt (by norm_num : (0:ℝ) ≤ 9/8)).mpr
          (by norm_num : (9/8 : ℝ) ^ 2 < 2)
        exact this
      linarith
    linarith
  have h8' : Tile.latToTileYFrac (-45 : ℝ) 0 < 2 ^ (0:ℕ) := by
    rw [hfneg]
    have hπ := Real.pi_pos
    have hdiv : -Real.log (Real.sqrt 2 - 1) / Real.pi < 1 :=
      (div_lt_one hπ).mpr (by linarith)
    rw [neg_div] at hdiv
    norm_num
    linarith
  exact (C7_tile_range ⟨-45, 0, 0, 90⟩ 0 (by norm_num) (by norm_num)
    (by norm_num) (by norm_num) (by norm_num) (by norm_num)
    (by show 0 ≤ Tile.latToTileYFrac 0 0; rw [hf0]; norm_num)
    (by show Tile.latToTileYFrac (-45 : ℝ) 0 < 2 ^ (0:ℕ); exact h8')).2.1

end Mesh3d
